import Mathlib

/-!
Verification development for the mark-port repository (a local Markdown
preview server).  The definitions below are a shallow embedding of the
TypeScript sources:

* `src/src/markdown.ts`   — Markdown rendering, heading extraction
* `src/src/fileTree.ts`   — file-tree builder, `fileExists`
* `src/src/watcher.ts`    — file watcher event type
* `src/src/routes/api.ts` — `/api/content` handler, asset-path rewriting
* `src/unnamed/part_003`  — `registerSseRoutes` (the SSE notification channel)

External library behaviour (node:path, the `marked` lexer, highlight.js,
the JS regex engine, fastify transport) is embedded as explicit functions
or abstract parameters; everything written in the repository itself is
translated definitionally.
-/

/-! ## node:path (posix flavour), char-level embedding

node's posix path functions scan the path characters and work on the
segments between `/` separators (`normalizeString` in node's
`lib/path.js`).  We model a path as a `String`, split it into segments
(`splitCh`), and mirror node's segment processing (`normSegsAux`).
-/

/-- Split a character list on `'/'`.  `splitCh "a/b".data = [[a],[b]]`,
`splitCh [] = [[]]`, matching the segment view used by node's path
functions (and JS `String.prototype.split('/')`). -/
def splitCh : List Char → List (List Char)
  | [] => [[]]
  | c :: rest =>
    if c = '/' then [] :: splitCh rest
    else
      match splitCh rest with
      | [] => [[c]]
      | s :: ss => (c :: s) :: ss

/-- Join segments with `'/'` (inverse of `splitCh` on slash-free segments). -/
def joinCh : List (List Char) → List Char
  | [] => []
  | [s] => s
  | s :: rest => s ++ '/' :: joinCh rest

/-- node `normalizeString(path, allowAboveRoot, '/')`, segment level.
The accumulator `res` holds the already-emitted segments in reverse.
Empty and `"."` segments are dropped; `".."` pops the previous segment
unless there is none or it is itself `".."`, in which case it is kept
only when `allowUp` is set (i.e. for relative paths). -/
def normSegsAux (allowUp : Bool) : List (List Char) → List (List Char) → List (List Char)
  | res, [] => res.reverse
  | res, seg :: rest =>
    if seg = [] ∨ seg = ['.'] then normSegsAux allowUp res rest
    else if seg = ['.', '.'] then
      match res with
      | [] => normSegsAux allowUp (if allowUp then [['.', '.']] else []) rest
      | top :: res' =>
        if top = ['.', '.'] then
          normSegsAux allowUp (if allowUp then seg :: res else res) rest
        else normSegsAux allowUp res' rest
    else normSegsAux allowUp (seg :: res) rest

/-- node `path.posix.normalize`.  Follows node's implementation: empty
path is `"."`; absoluteness and a trailing separator are preserved; the
body is `normalizeString` of the segments. -/
def posixNormalize (p : String) : String :=
  if p = "" then "."
  else
    let cs := p.data
    let isAbs := cs.head? = some '/'
    let trailing := cs.getLast? = some '/'
    let body := joinCh (normSegsAux (!isAbs) [] (splitCh cs))
    if body = [] then
      if isAbs then "/" else if trailing then "./" else "."
    else
      let body' := if trailing then body ++ ['/'] else body
      String.mk (if isAbs then '/' :: body' else body')

/-- node `path.posix.join`: empty arguments are skipped, the rest are
joined with `'/'` and the result normalized; no arguments gives `"."`. -/
def posixJoinList (args : List String) : String :=
  let parts := args.filter (fun a => a ≠ "")
  if parts = [] then "." else posixNormalize (String.mk (joinCh (parts.map String.data)))

/-- node `path.join(a, b)` (POSIX host). -/
def posixJoin2 (a b : String) : String := posixJoinList [a, b]

/-- node `path.posix.join(a, b, c)` (used by `rewriteAssetPaths`). -/
def posixJoin3 (a b c : String) : String := posixJoinList [a, b, c]

/-- node `path.resolve(p)` for an absolute `p` (the only use in the
sources; a relative `p` would resolve against the process cwd, modelled
here as `"/"`): the segments are normalized with `allowAboveRoot :=
false` and re-rooted. -/
def posixResolve1 (p : String) : String :=
  String.mk ('/' :: joinCh (normSegsAux false [] (splitCh p.data)))

/-- node `path.resolve(base, p)` for an absolute `base`: if `p` is
absolute, `base` is ignored, otherwise `p` is appended to `base` before
canonicalizing. -/
def posixResolve2 (base p : String) : String :=
  let cs := if p.data.head? = some '/' then p.data else base.data ++ '/' :: p.data
  String.mk ('/' :: joinCh (normSegsAux false [] (splitCh cs)))

/-- Canonical segment list of a resolved absolute path (used by
`posixRelative`, mirroring node's `relative`, which first resolves both
arguments). -/
def resolveSegs (p : String) : List (List Char) :=
  normSegsAux false [] (splitCh p.data)

/-- Strip the common prefix of two segment lists (node `relative` walks
both resolved paths past their common prefix). -/
def stripCommon : List (List Char) → List (List Char) → List (List Char) × List (List Char)
  | a :: as, b :: bs => if a = b then stripCommon as bs else (a :: as, b :: bs)
  | as, bs => (as, bs)

/-- node `path.relative(fr, to)` (POSIX host): identical paths give
`""`; otherwise one `".."` per remaining `fr` segment followed by the
remaining `to` segments, joined with `'/'`. -/
def posixRelative (fr dst : String) : String :=
  if fr = dst then ""
  else
    let f := resolveSegs fr
    let t := resolveSegs dst
    if f = t then ""
    else
      let rests := stripCommon f t
      String.mk (joinCh (List.replicate rests.1.length ['.', '.'] ++ rests.2))

/-- node `path.posix.dirname`, transliterated: scan from the end (never
looking at index 0), skip trailing separators, then find the separator
that ends the parent portion. -/
def posixDirname (p : String) : String :=
  if p = "" then "."
  else
    let cs := p.data
    let hasRoot := cs.head? = some '/'
    let r2 := ((cs.reverse.dropLast).dropWhile (fun c => c = '/')).dropWhile (fun c => c ≠ '/')
    if r2 = [] then (if hasRoot then "/" else ".")
    else if hasRoot ∧ r2.length = 1 then "//"
    else String.mk (cs.take r2.length)

/-! ## JS string primitives used by the route code -/

/-- JS `String.prototype.startsWith`. -/
def strStartsWith (s pre : String) : Bool := pre.data.isPrefixOf s.data

/-- Does `l` contain `pat` as a contiguous sublist? -/
def listHasInfix (pat : List Char) : List Char → Bool
  | [] => pat.isEmpty
  | l@(_ :: t) => pat.isPrefixOf l || listHasInfix pat t

/-- JS `String.prototype.includes`. -/
def strIncludes (s pat : String) : Bool := listHasInfix pat.data s.data

/-- Does the path contain an actual up-traversal segment `".."` (as
opposed to merely the two-character substring `".."`)? -/
def hasUpSegment (s : String) : Bool := (splitCh s.data).contains ['.', '.']

/-! ## Content Renderer (`src/src/markdown.ts`)

`marked` (the external Markdown library) is modelled by an abstract
lexer producing a token stream; the repository's custom renderer
callbacks (`renderer.code`, `renderer.heading`) and the module-global
`headings` side channel are embedded definitionally, the global becoming
an explicit state parameter. highlight.js and the JS regex engine used
by `rewriteAssetPaths` are abstract fields of the same environment. -/

/-- JS `\s` (ECMAScript WhiteSpace ∪ LineTerminator), as used by the
slug regexes `[^\w\s-]` and `\s+`. -/
def isJsSpace (c : Char) : Bool :=
  c = ' ' || c = '\t' || c = '\n' || c = '\r' || c.val = 11 || c.val = 12 ||
  c.val = 0xa0 || c.val = 0x1680 || (0x2000 ≤ c.val && c.val ≤ 0x200a) ||
  c.val = 0x2028 || c.val = 0x2029 || c.val = 0x202f || c.val = 0x205f ||
  c.val = 0x3000 || c.val = 0xfeff

/-- JS `\w`: `[A-Za-z0-9_]`. -/
def isWordChar (c : Char) : Bool :=
  ('a' ≤ c && c ≤ 'z') || ('A' ≤ c && c ≤ 'Z') || ('0' ≤ c && c ≤ '9') || c = '_'

/-- The step `.replace(/[^\w\s-]/g, '')`: keep word chars, whitespace and hyphens. -/
def stripNonSlug (cs : List Char) : List Char :=
  cs.filter (fun c => isWordChar c || isJsSpace c || c = '-')

/-- The step `.replace(/\s+/g, '-')`: each maximal whitespace run becomes one
hyphen.  The boolean flag records whether the previous character was
part of a whitespace run already replaced. -/
def collapseWs : Bool → List Char → List Char
  | _, [] => []
  | inRun, c :: rest =>
    if isJsSpace c then
      if inRun then collapseWs true rest else '-' :: collapseWs true rest
    else c :: collapseWs false rest

/-- JS `String.prototype.trim` (strips the same whitespace set). -/
def jsTrim (s : String) : String :=
  String.mk (((s.data.dropWhile isJsSpace).reverse.dropWhile isJsSpace).reverse)

/-- Heading-id slug computed inline in `renderer.heading`
(`src/src/markdown.ts` lines 24–27): lowercase, strip `[^\w\s-]`,
collapse whitespace runs to `-`. -/
def rendererHeadingId (text : String) : String :=
  String.mk (collapseWs false (stripNonSlug (text.data.map Char.toLower)))

/-- Heading-id slug computed inline in `extractHeadings`
(`src/src/markdown.ts` lines 54–57), applied to the already-trimmed
capture text.  Textually the same pipeline as `rendererHeadingId`. -/
def extractorHeadingId (text : String) : String :=
  String.mk (collapseWs false (stripNonSlug (text.data.map Char.toLower)))

/-- The `Heading` record (`src/src/types.ts`). -/
structure Heading where
  level : Nat
  text : String
  id : String
deriving DecidableEq

/-- One regex match of `extractHeadings`' line pattern
`^(#{1,6})\s+(.+)$` turned into a `Heading` (`src/src/markdown.ts`
lines 52–58): `level` is the hash count, `text` the trimmed capture,
`id` the slug of that trimmed text. -/
def extractorHeadingOfMatch (hashes capture : String) : Heading :=
  { level := hashes.length, text := jsTrim capture, id := extractorHeadingId (jsTrim capture) }

/-- Tokens handed to the installed renderer by `marked.parse`.  `code`
and `heading` invoke the repository's custom callbacks; everything else
is produced by marked's default rendering and opaque here. -/
inductive MdToken where
  | code (text : String) (lang : Option String)
  | heading (text : String) (depth : Nat)
  | htmlChunk (content : String)
deriving DecidableEq

/-- External-library environment: marked's lexer, highlight.js, and the
JS `String.replace` regex engine used by `rewriteAssetPaths` (called
with the embedded replacer callback). -/
structure ExtEnv where
  lex : String → List MdToken
  getLanguage : String → Bool
  highlight : String → String → String
  highlightAuto : String → String
  imgReplace : String → (String → String → String → String) → String

/-- The `renderer.code` callback (`src/src/markdown.ts` lines 9–21).  A `mermaid`
fence is emitted verbatim in a `div.mermaid` container; otherwise the
block is syntax-highlighted (by language when recognized, automatically
otherwise).  JS truthiness of `lang` means a non-empty string. -/
def rendererCode (env : ExtEnv) (text : String) (lang : Option String) : String :=
  if lang = some "mermaid" then
    "<div class=\"mermaid\">" ++ text ++ "</div>"
  else
    let langTruthy := lang.getD "" ≠ ""
    let highlighted :=
      if langTruthy && env.getLanguage (lang.getD "") then env.highlight (lang.getD "") text
      else env.highlightAuto text
    "<pre><code class=\"hljs" ++ (if langTruthy then " language-" ++ lang.getD "" else "") ++
      "\">" ++ highlighted ++ "</code></pre>"

/-- The `renderer.heading` callback (`src/src/markdown.ts` lines 23–32): computes the
slug id, pushes onto the module-global `headings` (here the explicit
state), and returns the anchor-carrying heading tag. -/
def rendererHeading (st : List Heading) (text : String) (depth : Nat) :
    List Heading × String :=
  let id := rendererHeadingId text
  (st ++ [{ level := depth, text := text, id := id }],
   "<h" ++ toString depth ++ " id=\"" ++ id ++ "\">" ++ text ++ "</h" ++ toString depth ++ ">")

/-- Rendering of one token by `marked.parse` with the installed
renderer, threading the `headings` global. -/
def renderTok (env : ExtEnv) (st : List Heading) : MdToken → List Heading × String
  | .code text lang => (st, rendererCode env text lang)
  | .heading text depth => rendererHeading st text depth
  | .htmlChunk h => (st, h)

/-- The `marked.parse` pass: render the token stream in order, concatenating the
HTML and accumulating headings in the side channel. -/
def renderToks (env : ExtEnv) (st : List Heading) : List MdToken → List Heading × String
  | [] => (st, "")
  | t :: rest =>
    let r := renderTok env st t
    let r' := renderToks env r.1 rest
    (r'.1, r.2 ++ r'.2)

/-- Result record of `parseMarkdown`. -/
structure MdResult where
  html : String
  headings : List Heading
deriving DecidableEq

/-- The function `parseMarkdown` (`src/src/markdown.ts` lines 40–44).  The incoming
state `σ` is the module-global `headings` left by earlier calls; the
function clears it (`headings.length = 0`), parses, and returns the new
global together with a defensive copy (`[...headings]`). -/
def parseMarkdown (env : ExtEnv) (σ : List Heading) (content : String) :
    List Heading × MdResult :=
  let cleared : List Heading := []
  let r := renderToks env cleared (env.lex content)
  (r.1, { html := r.2, headings := r.1 })

/-- The `Heading` record that rendering pushes for a heading token. -/
def headingRecordOf : MdToken → Option Heading
  | .heading text depth => some { level := depth, text := text, id := rendererHeadingId text }
  | _ => none

/-! ## Tree Builder (`src/src/fileTree.ts`)

`readdir` is modelled by an in-memory directory listing (`FSEntry`).
`fileTree.ts` imports `join` and `relative` from `node:path`, which are
host-convention dependent; the pair is therefore a parameter `PathMod`,
instantiated with the POSIX embedding above (and, for one
counterexample, with a Windows model). -/

/-- One directory entry as seen by `readdir(..., { withFileTypes: true })`. -/
inductive FSEntry where
  | file (name : String)
  | dir (name : String) (entries : List FSEntry)

/-- Accessor `entry.name`. -/
def FSEntry.name : FSEntry → String
  | .file n => n
  | .dir n _ => n

/-- The `TreeNode` record (`src/src/types.ts`): `children` is present exactly for
directories. -/
inductive TreeNode where
  | file (name : String) (path : String)
  | dir (name : String) (path : String) (children : List TreeNode)

/-- Accessor `node.name`. -/
def TreeNode.name : TreeNode → String
  | .file n _ => n
  | .dir n _ _ => n

/-- Accessor `node.path`. -/
def TreeNode.path : TreeNode → String
  | .file _ p => p
  | .dir _ p _ => p

/-- Test `node.type === 'directory'`. -/
def TreeNode.isDir : TreeNode → Bool
  | .file _ _ => false
  | .dir _ _ _ => true

/-- The `IGNORE_PATTERNS` list (`src/src/fileTree.ts` lines 5–12). -/
def IGNORE_PATTERNS : List String :=
  ["node_modules", ".git", ".DS_Store", "dist", ".next", ".cache"]

/-- The function `isMarkdownFile` (`src/src/fileTree.ts` lines 56–59): lowercase the
name and test the `.md` / `.markdown` suffixes. -/
def isMarkdownFile (filename : String) : Bool :=
  let ext := filename.data.map Char.toLower
  (".md".data.isSuffixOf ext) || (".markdown".data.isSuffixOf ext)

mutual
/-- The function `hasMarkdownFiles` (`src/src/fileTree.ts` lines 61–67): some node is
a file, or a directory whose children recursively contain one. -/
def hasMarkdownFiles : List TreeNode → Bool
  | [] => false
  | n :: rest => nodeHasMarkdown n || hasMarkdownFiles rest

/-- The predicate `hasMarkdownFiles` applies to each node. -/
def nodeHasMarkdown : TreeNode → Bool
  | .file _ _ => true
  | .dir _ _ cs => hasMarkdownFiles cs
end

/-- Stable insertion of `a` into a list: `a` goes in front of the first
element it compares `le` to. -/
def insertLe {α : Type} (le : α → α → Bool) (a : α) : List α → List α
  | [] => [a]
  | b :: rest => if le a b then a :: b :: rest else b :: insertLe le a rest

/-- JS `Array.prototype.sort` with a consistent comparator: a stable
sort producing a sequence ordered by the comparator (ECMA-262 leaves
the algorithm open; stable insertion sort realizes the specified
behaviour). -/
def sortLe {α : Type} (le : α → α → Bool) : List α → List α
  | [] => []
  | a :: rest => insertLe le a (sortLe le rest)

/-- The two `node:path` functions `fileTree.ts` imports; their behaviour
depends on the host platform. -/
structure PathMod where
  join : String → String → String
  relative : String → String → String

/-- The `node:path` pair on a POSIX host. -/
def posixPm : PathMod := { join := posixJoin2, relative := posixRelative }

/-- The sort comparator of `buildFileTree` (`src/src/fileTree.ts` lines
48–53): same type → `localeCompare` of the names, otherwise directories
first.  `lc` is the host's locale-aware `String.prototype.localeCompare`. -/
def nodeCompare (lc : String → String → Int) (a b : TreeNode) : Int :=
  if a.isDir = b.isDir then lc a.name b.name
  else if a.isDir then -1 else 1

/-- Whether `a` sorts no later than `b` under the comparator. -/
def nodeLe (lc : String → String → Int) (a b : TreeNode) : Bool :=
  decide (nodeCompare lc a b ≤ 0)

mutual
/-- One iteration of `buildFileTree`'s `for`-loop
(`src/src/fileTree.ts` lines 21–46): skip ignored names; keep a file
iff it matches the Markdown extension filter; recurse into a directory
and keep it iff the subtree is non-empty (or, redundantly, contains
markdown files).  Returns the zero or one nodes the iteration pushes. -/
def buildEntry (pm : PathMod) (lc : String → String → Int)
    (e : FSEntry) (dirPath basePath : String) : List TreeNode :=
  if IGNORE_PATTERNS.contains e.name then []
  else
    match e with
    | .file n =>
      if isMarkdownFile n then [.file n (pm.relative basePath (pm.join dirPath n))]
      else []
    | .dir n sub =>
      let fullPath := pm.join dirPath n
      let children := sortLe (nodeLe lc) (buildNodes pm lc sub fullPath basePath)
      if children.length > 0 || hasMarkdownFiles children then
        [.dir n (pm.relative basePath fullPath) children]
      else []

/-- The whole `for`-loop: nodes pushed in `readdir` order. -/
def buildNodes (pm : PathMod) (lc : String → String → Int) :
    List FSEntry → String → String → List TreeNode
  | [], _, _ => []
  | e :: rest, dirPath, basePath =>
    buildEntry pm lc e dirPath basePath ++ buildNodes pm lc rest dirPath basePath
end

/-- The function `buildFileTree` (`src/src/fileTree.ts` lines 14–54): build the nodes
of one directory level in `readdir` order, then sort them with the
comparator. -/
def buildFileTree (pm : PathMod) (lc : String → String → Int)
    (entries : List FSEntry) (dirPath basePath : String) : List TreeNode :=
  sortLe (nodeLe lc) (buildNodes pm lc entries dirPath basePath)

/-- Kind of an existing filesystem object (what a successful `stat`
reports). -/
inductive FsKind where
  | file
  | directory
deriving DecidableEq

/-- The filesystem as the route handler sees it: `kind p = none` models
`stat` throwing (ENOENT), `some k` a successful `stat`; `read` is
`readFile(..., 'utf-8')`. -/
structure FileSys where
  kind : String → Option FsKind
  read : String → String

/-- The function `fileExists` (`src/src/fileTree.ts` lines 69–76): `true` iff `stat`
succeeds — for any kind of entry, directories included. -/
def fileExists (fs : FileSys) (p : String) : Bool := (fs.kind p).isSome

/-! ## Notification Channel (`src/unnamed/part_003`, `registerSseRoutes`)

One SSE connection is a small state machine.  On open the handler
synchronously writes the `connected` event, starts the heartbeat timer
and (when a watcher exists) registers `onFileChange` on the watcher's
`change` topic; the transport then delivers watcher emissions, timer
ticks and the close signal in some interleaving, modelled as an input
list.  `close` runs the `request.raw.on('close')` callback:
`clearInterval` plus `watcher.off('change', onFileChange)`. -/

/-- The `FileChangeEvent` record (`src/src/watcher.ts` lines 5–8). -/
structure FileChangeEvent where
  type : String
  file : String
deriving DecidableEq

/-- Inputs a connection can receive after it is set up. -/
inductive ConnInput where
  | fsEvent (e : FileChangeEvent)
  | heartbeatTick
  | close
deriving DecidableEq

/-- Messages written to the SSE response stream. -/
inductive SseMessage where
  | connected
  | fileChange (e : FileChangeEvent)
  | heartbeat
deriving DecidableEq

/-- Per-connection registration state: is `onFileChange` still
registered on the watcher, is the heartbeat interval still alive. -/
structure ConnState where
  listenerOn : Bool
  timerOn : Bool

/-- One input step of a connection. -/
def connStep (st : ConnState) : ConnInput → ConnState × List SseMessage
  | .fsEvent e => (st, if st.listenerOn then [.fileChange e] else [])
  | .heartbeatTick => (st, if st.timerOn then [.heartbeat] else [])
  | .close => ({ listenerOn := false, timerOn := false }, [])

/-- Messages written while processing the inputs from state `st`. -/
def connRun (st : ConnState) : List ConnInput → List SseMessage
  | [] => []
  | i :: rest =>
    let r := connStep st i
    r.2 ++ connRun r.1 rest

/-- The full message trace of one `/sse/changes` connection:
`connected` is written first, synchronously, before the listener even
exists; then the inputs are processed.  `hasWatcher` is whether the
`watcher` argument of `registerSseRoutes` was non-null. -/
def sseConnection (hasWatcher : Bool) (inputs : List ConnInput) : List SseMessage :=
  SseMessage.connected :: connRun { listenerOn := hasWatcher, timerOn := true } inputs

/-- The payload of a `fileChange` message, for filtering traces. -/
def fileChangeOf : SseMessage → Option FileChangeEvent
  | .fileChange e => some e
  | _ => none

/-- Watcher emissions that occur strictly before the transport close. -/
def eventsBeforeClose : List ConnInput → List FileChangeEvent
  | [] => []
  | .close :: _ => []
  | .fsEvent e :: rest => e :: eventsBeforeClose rest
  | .heartbeatTick :: rest => eventsBeforeClose rest

/-! ## Request handler (`src/src/routes/api.ts`) -/

/-- The replacer callback of `rewriteAssetPaths` (`src/src/routes/api.ts`
lines 11–18), applied to one regex match `prefix ++ src ++ suffix`:
absolute URLs, data URIs and root-relative paths are returned unchanged;
a relative `src` is rebased into `/assets` under the file's directory. -/
def rewriteAssetSrc (fileDir pre src suf : String) : String :=
  if strStartsWith src "http://" || strStartsWith src "https://" ||
      strStartsWith src "data:" || strStartsWith src "/" then
    pre ++ src ++ suf
  else
    pre ++ posixNormalize (posixJoin3 "/assets" fileDir src) ++ suf

/-- The serving mode `context.mode`. -/
inductive Mode where
  | file
  | directory
deriving DecidableEq

/-- Reply body of `/api/content`: the `ContentResponse` record or an
`{ error }` object. -/
inductive ContentReply where
  | ok (file html raw : String) (headings : List Heading)
  | err (msg : String)
deriving DecidableEq

/-- Filesystem accesses the handler performs, in order (`stat` from
`fileExists`, `readFile`). -/
inductive FsAccess where
  | statOf (p : String)
  | readOf (p : String)
deriving DecidableEq

/-- The resolved absolute path the `/api/content` handler works with for
query value `f` (`src/src/routes/api.ts` lines 72–76). -/
def contentResolved (mode : Mode) (targetPath basePath f : String) : String :=
  posixResolve1
    (if mode = Mode.file then posixResolve2 basePath targetPath
     else posixJoin2 basePath (posixNormalize f))

/-- The `/api/content` handler (`src/src/routes/api.ts` lines 55–99) on
a POSIX host.  `σ` is the renderer's module-global heading state at the
time of the request.  Returns the HTTP status with the reply body,
together with the list of filesystem accesses performed.  JS `!file` is
true for both a missing and an empty query parameter. -/
def contentHandler (env : ExtEnv) (σ : List Heading) (mode : Mode)
    (targetPath basePath : String) (fs : FileSys) (fileQ : Option String) :
    (Nat × ContentReply) × List FsAccess :=
  if fileQ.getD "" = "" then ((400, .err "File parameter is required"), [])
  else
    let file := fileQ.getD ""
    let normalizedPath := posixNormalize file
    if strIncludes normalizedPath ".." || strStartsWith normalizedPath "/" then
      ((403, .err "Invalid file path"), [])
    else
      let resolvedPath := contentResolved mode targetPath basePath file
      if !(strStartsWith resolvedPath (posixResolve1 basePath)) then
        ((403, .err "Access denied"), [])
      else if !(fileExists fs resolvedPath) then
        ((404, .err "File not found"), [.statOf resolvedPath])
      else
        let raw := fs.read resolvedPath
        let pr := (parseMarkdown env σ raw).2
        let fileDir := if mode = Mode.file then "" else posixDirname normalizedPath
        let processedHtml := env.imgReplace pr.html (rewriteAssetSrc fileDir)
        ((200, .ok normalizedPath processedHtml raw pr.headings),
         [.statOf resolvedPath, .readOf resolvedPath])

/-! ## node:path on a Windows host (win32 flavour)

`fileTree.ts` imports `join`/`relative` from `node:path`, whose
behaviour is host dependent.  The Windows flavour is modelled here for
drive-rooted absolute paths and plain relative paths (no UNC paths and
no drive-relative paths — mark-port never constructs those): segments
split on either separator, joined back with `'\'`, `relative` comparing
resolved segments case-insensitively, exactly as node's `path.win32`. -/

/-- Windows treats both `'/'` and `'\'` as separators. -/
def isWinSep (c : Char) : Bool := c = '/' || c = '\\'

/-- Split a character list on Windows separators. -/
def splitWin : List Char → List (List Char)
  | [] => [[]]
  | c :: rest =>
    if isWinSep c then [] :: splitWin rest
    else
      match splitWin rest with
      | [] => [[c]]
      | s :: ss => (c :: s) :: ss

/-- Join segments with `'\'` (the win32 output separator). -/
def joinBk : List (List Char) → List Char
  | [] => []
  | [s] => s
  | s :: rest => s ++ '\\' :: joinBk rest

/-- Does the path start with a drive designator (`C:`)? -/
def hasDrive (cs : List Char) : Bool :=
  match cs with
  | a :: b :: _ => (('a' ≤ a && a ≤ 'z') || ('A' ≤ a && a ≤ 'Z')) && b = ':'
  | _ => false

/-- node `path.win32.normalize`, for drive-rooted and plain relative paths. -/
def win32Normalize (p : String) : String :=
  let cs := p.data
  if hasDrive cs then
    let device := cs.take 2
    let rest := cs.drop 2
    let isAbs := rest.head?.elim false isWinSep
    let segs := normSegsAux (!isAbs) [] (splitWin rest)
    String.mk (device ++ (if isAbs then '\\' :: joinBk segs else joinBk segs))
  else
    let segs := normSegsAux true [] (splitWin cs)
    if segs = [] then "." else String.mk (joinBk segs)

/-- node `path.win32.join(a, b)`: non-empty arguments joined with `'\'`,
then normalized. -/
def win32Join2 (a b : String) : String :=
  let parts := [a, b].filter (fun s => s ≠ "")
  if parts = [] then "." else win32Normalize (String.mk (joinBk (parts.map String.data)))

/-- Device prefix and canonical segments of a resolved win32 path. -/
def win32ResolveSegs (p : String) : List Char × List (List Char) :=
  let cs := p.data
  if hasDrive cs then (cs.take 2, normSegsAux false [] (splitWin (cs.drop 2)))
  else ([], normSegsAux false [] (splitWin cs))

/-- Lowercase a segment (node compares win32 paths case-insensitively). -/
def lowerSeg (s : List Char) : List Char := s.map Char.toLower

/-- Strip the case-insensitively common prefix, keeping the original
(destination) spelling of the remainder. -/
def stripCommonCI : List (List Char) → List (List Char) → List (List Char) × List (List Char)
  | a :: as, b :: bs =>
    if lowerSeg a = lowerSeg b then stripCommonCI as bs else (a :: as, b :: bs)
  | as, bs => (as, bs)

/-- node `path.win32.relative`, for same-drive absolute paths: one
`".."` per remaining source segment, then the remaining destination
segments, joined with `'\'`; different drives return the resolved
destination. -/
def win32Relative (fr dst : String) : String :=
  if fr = dst then ""
  else
    let f := win32ResolveSegs fr
    let t := win32ResolveSegs dst
    if lowerSeg f.1 = lowerSeg t.1 then
      if f.2.map lowerSeg = t.2.map lowerSeg then ""
      else
        let rests := stripCommonCI f.2 t.2
        String.mk (joinBk (List.replicate rests.1.length ['.', '.'] ++ rests.2))
    else String.mk (t.1 ++ '\\' :: joinBk t.2)

/-- The `node:path` pair on a Windows host. -/
def win32Pm : PathMod := { join := win32Join2, relative := win32Relative }

/-! ## Canonical-path vocabulary for the tree-path theorems -/

/-- A well-formed directory-entry name: non-empty, no separator, and
not one of the special names `.` / `..` (an OS `readdir` never returns
those). -/
def validSeg (s : String) : Bool :=
  s ≠ "" && !(s.data.contains '/') && s ≠ "." && s ≠ ".."

/-- The canonical absolute POSIX path with the given segments. -/
def mkAbs (segs : List String) : String :=
  String.mk ('/' :: joinCh (segs.map String.data))

/-- Segments joined with `'/'` — the spec's "POSIX-joined relative
path". -/
def slashJoin (segs : List String) : String :=
  String.mk (joinCh (segs.map String.data))

mutual
/-- All entry names in the listing are well-formed, recursively. -/
def fsValid : List FSEntry → Bool
  | [] => true
  | e :: rest => entryValid e && fsValid rest

/-- The entry's name is well-formed; for directories, recursively so. -/
def entryValid : FSEntry → Bool
  | .file n => validSeg n
  | .dir n sub => validSeg n && fsValid sub
end

mutual
/-- Spec-side path property of a returned forest (`specNodeOk` for each
node): written from the spec's words, to be compared with what
`buildFileTree` produces. -/
def specForestOk (base dirPath : String) (pre : List String) : List TreeNode → Bool
  | [] => true
  | n :: rest => specNodeOk base dirPath pre n && specForestOk base dirPath pre rest

/-- Spec-side property of one node situated under relative segments
`pre`: its `path` is the POSIX-joined relative path from the tree root,
and resolving `root + path` reaches the original absolute entry. -/
def specNodeOk (base dirPath : String) (pre : List String) : TreeNode → Bool
  | .file name p =>
    p = slashJoin (pre ++ [name]) && posixResolve2 base p = posixJoin2 dirPath name
  | .dir name p children =>
    p = slashJoin (pre ++ [name]) && posixResolve2 base p = posixJoin2 dirPath name &&
      specForestOk base (posixJoin2 dirPath name) (pre ++ [name]) children
end

/-! ## Spec-side well-formedness for the tree invariants (claim C4) -/

/-- The claim's sibling order: directories precede files; within one
group (same `isDir`) the names are non-descending under the host's
`localeCompare`. -/
def dirsBeforeFilesAlpha (lc : String → String → Int) (a b : TreeNode) : Bool :=
  if a.isDir = b.isDir then decide (lc a.name b.name ≤ 0) else (a.isDir && !b.isDir)

/-- Each adjacent sibling pair is ordered. -/
def siblingsOrdered (lc : String → String → Int) : List TreeNode → Bool
  | [] => true
  | [_] => true
  | a :: b :: rest => dirsBeforeFilesAlpha lc a b && siblingsOrdered lc (b :: rest)

mutual
/-- Does some node of the forest hold an eligible (Markdown) file? -/
def anyEligible : List TreeNode → Bool
  | [] => false
  | n :: rest => nodeEligible n || anyEligible rest

/-- Does this node or a descendant hold an eligible file? -/
def nodeEligible : TreeNode → Bool
  | .file name _ => isMarkdownFile name
  | .dir _ _ cs => anyEligible cs
end

mutual
/-- Every node of the forest is well-formed. -/
def forestWf (lc : String → String → Int) : List TreeNode → Bool
  | [] => true
  | n :: rest => nodeWf lc n && forestWf lc rest

/-- The claim's per-node invariant: a file node carries an eligible
non-ignored name; a directory node carries a non-ignored name, holds an
eligible file somewhere below it, and its children are ordered and
themselves well-formed. -/
def nodeWf (lc : String → String → Int) : TreeNode → Bool
  | .file name _ => isMarkdownFile name && !(IGNORE_PATTERNS.contains name)
  | .dir name _ children =>
    !(IGNORE_PATTERNS.contains name) && anyEligible children &&
      siblingsOrdered lc children && forestWf lc children
end

/-! ## Concrete instances used by the witnesses -/

/-- A host `localeCompare` given by the standard lexicographic order. -/
def lcStd (a b : String) : Int := if a < b then -1 else if b < a then 1 else 0

/-- An environment whose lexer finds nothing (any fixed environment
works: the claims quantify over it). -/
def env0 : ExtEnv :=
  { lex := fun _ => [], getLanguage := fun _ => false,
    highlight := fun _ _ => "", highlightAuto := fun _ => "",
    imgReplace := fun h _ => h }

/-- An environment whose lexer produces one heading and one mermaid
fence. -/
def envM : ExtEnv :=
  { env0 with lex := fun _ =>
      [MdToken.heading "Title" 1, MdToken.code "graph TD\nA-->B" (some "mermaid")] }

/-- An empty filesystem. -/
def fs0 : FileSys := { kind := fun _ => none, read := fun _ => "" }

/-- A filesystem with one markdown file and one directory under `/root`. -/
def fs1 : FileSys :=
  { kind := fun p =>
      if p = "/root/a.md" then some .file
      else if p = "/root/docs" then some .directory
      else none,
    read := fun p => if p = "/root/a.md" then "# Hi" else "" }

/-- A small directory listing used by the tree witnesses. -/
def entries1 : List FSEntry :=
  [.file "readme.md", .dir "sub" [.file "a.md"], .file "zzz.txt", .dir "node_modules" [.file "x.md"]]

/-- The `children` of a node (`[]` for files, which carry none). -/
def TreeNode.children : TreeNode → List TreeNode
  | .file _ _ => []
  | .dir _ _ cs => cs

mutual
/-- All `path` fields of a forest, in preorder. -/
def forestPaths : List TreeNode → List String
  | [] => []
  | n :: rest => nodePaths n ++ forestPaths rest

/-- All `path` fields of one node's subtree, in preorder. -/
def nodePaths : TreeNode → List String
  | .file _ p => [p]
  | .dir _ p cs => p :: forestPaths cs
end

/-- The per-token HTML of the installed renderer (heading output does
not depend on the side-channel state, so the state is irrelevant here). -/
def htmlOfToks (env : ExtEnv) : List MdToken → String
  | [] => ""
  | t :: rest => (renderTok env [] t).2 ++ htmlOfToks env rest

/-! # Theorems -/

-- sanity checks of the path embedding against node behaviour
example : posixNormalize "../../../etc/passwd" = "../../../etc/passwd" := by decide
example : posixNormalize "/etc/passwd" = "/etc/passwd" := by decide
example : posixNormalize "a/./b/../c" = "a/c" := by decide
example : posixNormalize "" = "." := by decide
example : posixNormalize "/" = "/" := by decide
example : posixJoin2 "/root" "docs/a.md" = "/root/docs/a.md" := by decide
example : posixJoin3 "/assets" "docs" "../assets/photo.jpg" = "/assets/assets/photo.jpg" := by decide
example : posixJoin3 "/assets" "." "images/t.png" = "/assets/images/t.png" := by decide
example : posixResolve1 "/root//docs/./a.md" = "/root/docs/a.md" := by decide
example : posixResolve2 "/root" "single.md" = "/root/single.md" := by decide
example : posixRelative "/r" "/r/docs/a.md" = "docs/a.md" := by decide
example : posixRelative "/r" "/r" = "" := by decide
example : posixDirname "docs/guide.md" = "docs" := by decide
example : posixDirname "readme.md" = "." := by decide
example : posixDirname "/a" = "/" := by decide
example : strIncludes "notes..md" ".." = true := by decide
example : hasUpSegment "notes..md" = false := by decide
example : hasUpSegment "../a" = true := by decide

-- sanity: slug examples from the spec's testable properties
example : rendererHeadingId "Hello, World! (2024)" = "hello-world-2024" := by decide
example : rendererHeadingId "Multiple   Spaces   Here" = "multiple-spaces-here" := by decide
example : rendererHeadingId "Hello World!" = "hello-world" := by decide

-- sanity checks against node's win32 behaviour
example : win32Join2 "C:\\base" "sub" = "C:\\base\\sub" := by decide
example : win32Relative "C:\\base" "C:\\base\\sub\\a.md" = "sub\\a.md" := by decide
example : win32Normalize "C:\\base\\x\\..\\y" = "C:\\base\\y" := by decide

/-! ## Generic facts about the stable sort -/

theorem insertLe_perm {α : Type} (le : α → α → Bool) (a : α) (l : List α) :
    (insertLe le a l).Perm (a :: l) := by
  induction l with
  | nil => simp [insertLe]
  | cons b rest ih =>
    simp only [insertLe]
    by_cases h : le a b
    · simp [h]
    · simp only [h, if_false, Bool.false_eq_true]
      exact (ih.cons b).trans (List.Perm.swap a b rest)

theorem sortLe_perm {α : Type} (le : α → α → Bool) (l : List α) :
    (sortLe le l).Perm l := by
  induction l with
  | nil => simp [sortLe]
  | cons a rest ih =>
    exact ((insertLe_perm le a (sortLe le rest)).trans (ih.cons a))

theorem mem_insertLe {α : Type} {le : α → α → Bool} {a x : α} {l : List α}
    (h : x ∈ insertLe le a l) : x = a ∨ x ∈ l := by
  have := (insertLe_perm le a l).mem_iff.mp h
  simpa using this

theorem insertLe_pairwise {α : Type} {le : α → α → Bool}
    (htr : ∀ a b c, le a b = true → le b c = true → le a c = true)
    (hto : ∀ a b, le a b = true ∨ le b a = true)
    (a : α) (l : List α) (h : List.Pairwise (fun x y => le x y = true) l) :
    List.Pairwise (fun x y => le x y = true) (insertLe le a l) := by
  induction l with
  | nil => simp [insertLe]
  | cons b rest ih =>
    rcases List.pairwise_cons.mp h with ⟨hb, hrest⟩
    simp only [insertLe]
    by_cases hab : le a b = true
    · rw [if_pos hab]
      refine List.pairwise_cons.mpr ⟨?_, h⟩
      intro x hx
      rcases List.mem_cons.mp hx with rfl | hx
      · exact hab
      · exact htr a b x hab (hb x hx)
    · have hba : le b a = true := by
        rcases hto a b with h' | h'
        · exact absurd h' hab
        · exact h'
      rw [if_neg hab]
      refine List.pairwise_cons.mpr ⟨?_, ih hrest⟩
      intro x hx
      rcases mem_insertLe hx with rfl | hx
      · exact hba
      · exact hb x hx

theorem sortLe_pairwise {α : Type} {le : α → α → Bool}
    (htr : ∀ a b c, le a b = true → le b c = true → le a c = true)
    (hto : ∀ a b, le a b = true ∨ le b a = true)
    (l : List α) :
    List.Pairwise (fun x y => le x y = true) (sortLe le l) := by
  induction l with
  | nil => simp [sortLe]
  | cons a rest ih => exact insertLe_pairwise htr hto a (sortLe le rest) ih

/-! ## Notification-channel lemmas -/

theorem connRun_off (inputs : List ConnInput) :
    connRun { listenerOn := false, timerOn := false } inputs = [] := by
  induction inputs with
  | nil => rfl
  | cons i rest ih => cases i <;> simp [connRun, connStep, ih]

theorem connRun_filterMap_fc (inputs : List ConnInput) :
    ∀ l t : Bool, (connRun { listenerOn := l, timerOn := t } inputs).filterMap fileChangeOf
      = (if l then eventsBeforeClose inputs else []) := by
  induction inputs with
  | nil => intro l t; cases l <;> simp [connRun, eventsBeforeClose]
  | cons i rest ih =>
    intro l t
    cases i with
    | fsEvent e =>
      cases l <;> simp [connRun, connStep, eventsBeforeClose, fileChangeOf, ih]
    | heartbeatTick =>
      cases l <;> cases t <;>
        simp [connRun, connStep, eventsBeforeClose, fileChangeOf, ih]
    | close =>
      cases l <;> simp [connRun, connStep, eventsBeforeClose, ih]

theorem connRun_close_stops (pre : List ConnInput) :
    ∀ (st : ConnState) (post : List ConnInput),
      connRun st (pre ++ ConnInput.close :: post) = connRun st (pre ++ [ConnInput.close]) := by
  induction pre with
  | nil =>
    intro st post
    simp [connRun, connStep, connRun_off]
  | cons i rest ih =>
    intro st post
    simp only [List.cons_append, connRun, List.append_eq]
    rw [ih]

/-- C2: on every notification-channel connection the
connection-acknowledgement message is the first message written (so it
precedes any change event); the change events delivered are exactly the
watcher emissions that happened before the transport closed, in
emission order; and once the transport closes the trace is unaffected
by any further watcher events (the listener is deregistered and never
invoked again). -/
theorem sse_connection_contract :
    (∀ inputs, (sseConnection true inputs).head? = some SseMessage.connected) ∧
    (∀ inputs, (sseConnection true inputs).filterMap fileChangeOf = eventsBeforeClose inputs) ∧
    (∀ (hasWatcher : Bool) (pre post : List ConnInput),
      sseConnection hasWatcher (pre ++ ConnInput.close :: post)
        = sseConnection hasWatcher (pre ++ [ConnInput.close])) := by
  refine ⟨fun inputs => rfl, fun inputs => ?_, fun hw pre post => ?_⟩
  · simp [sseConnection, List.filterMap, fileChangeOf, connRun_filterMap_fc]
  · simp [sseConnection, connRun_close_stops]

/-! ## Heading-id agreement (the two extraction paths) -/

/-- C3: the heading id computed inline by the full renderer
(`renderer.heading`) and the id computed by the line-oriented
`extractHeadings` agree whenever the heading text is identical: the
extractor's id for a regex capture equals the renderer's id for the
(trimmed) text, and the two id pipelines agree on every string. -/
theorem heading_id_paths_agree :
    (∀ hashes capture rendText : String, jsTrim capture = rendText →
      (extractorHeadingOfMatch hashes capture).id = rendererHeadingId rendText) ∧
    (∀ t : String, extractorHeadingId t = rendererHeadingId t) := by
  constructor
  · intro hashes capture rendText h
    subst h
    rfl
  · intro t
    rfl

/-- Witness for C3 at a concrete heading. -/
theorem heading_id_paths_agree_witness :
    (extractorHeadingOfMatch "##" "  Hello, World! (2024) ").id
      = rendererHeadingId "Hello, World! (2024)" :=
  heading_id_paths_agree.1 "##" "  Hello, World! (2024) " "Hello, World! (2024)" (by decide)

/-! ## Renderer state lemmas -/

theorem renderToks_headings (env : ExtEnv) (toks : List MdToken) :
    ∀ st : List Heading,
      (renderToks env st toks).1 = st ++ toks.filterMap headingRecordOf := by
  induction toks with
  | nil => intro st; simp [renderToks]
  | cons t rest ih =>
    intro st
    cases t with
    | code text lang => simp [renderToks, renderTok, headingRecordOf, ih]
    | heading text depth =>
      simp [renderToks, renderTok, rendererHeading, headingRecordOf, ih]
    | htmlChunk h => simp [renderToks, renderTok, headingRecordOf, ih]

theorem renderToks_html (env : ExtEnv) (toks : List MdToken) :
    ∀ st : List Heading, (renderToks env st toks).2 = htmlOfToks env toks := by
  induction toks with
  | nil => intro st; rfl
  | cons t rest ih =>
    intro st
    cases t with
    | code text lang => simp [renderToks, renderTok, htmlOfToks, ih]
    | heading text depth =>
      simp [renderToks, renderTok, rendererHeading, htmlOfToks, ih]
    | htmlChunk h => simp [renderToks, renderTok, htmlOfToks, ih]

/-- C6: for any two consecutive `parseMarkdown` calls, the headings
returned by the second call are exactly the headings of the second
input — the records its token stream alone determines — and coincide
with what a call from a pristine (empty) side channel returns: nothing
leaks from the first call.  (The side channel is cleared on entry and a
copy is returned.) -/
theorem parse_markdown_no_leakage (env : ExtEnv) (σ : List Heading) (a b : String) :
    (parseMarkdown env (parseMarkdown env σ a).1 b).2.headings
      = (env.lex b).filterMap headingRecordOf ∧
    (parseMarkdown env (parseMarkdown env σ a).1 b).2.headings
      = (parseMarkdown env [] b).2.headings := by
  constructor
  · simp [parseMarkdown, renderToks_headings]
  · rfl

/-- C8: a fenced block tagged `mermaid` is rendered as a `div.mermaid`
container holding the body verbatim: whenever the lexer produces such a
token, the document HTML contains the container; the code renderer
emits exactly the container for it; and the output is independent of
the highlighter (no syntax-highlighting markup is applied). -/
theorem mermaid_block_verbatim (env : ExtEnv) (σ : List Heading) (content body : String)
    (hmem : MdToken.code body (some "mermaid") ∈ env.lex content) :
    (∃ p q, (parseMarkdown env σ content).2.html
        = p ++ ("<div class=\"mermaid\">" ++ body ++ "</div>") ++ q) ∧
    rendererCode env body (some "mermaid") = "<div class=\"mermaid\">" ++ body ++ "</div>" ∧
    (∀ env' : ExtEnv, rendererCode env' body (some "mermaid")
        = "<div class=\"mermaid\">" ++ body ++ "</div>") := by
  refine ⟨?_, rfl, fun env' => rfl⟩
  have hsplit : ∀ toks : List MdToken, MdToken.code body (some "mermaid") ∈ toks →
      ∃ p q, htmlOfToks env toks = p ++ ("<div class=\"mermaid\">" ++ body ++ "</div>") ++ q := by
    intro toks hmem
    induction toks with
    | nil => cases hmem
    | cons t rest ih =>
      rcases List.mem_cons.mp hmem with rfl | hmem'
      · exact ⟨"", htmlOfToks env rest, by
          simp [htmlOfToks, renderTok, rendererCode]⟩
      · rcases ih hmem' with ⟨p, q, hpq⟩
        refine ⟨(renderTok env [] t).2 ++ p, q, ?_⟩
        simp [htmlOfToks, hpq, String.append_assoc]
  have := hsplit (env.lex content) hmem
  simpa [parseMarkdown, renderToks_html] using this

/-- Witness for C8: a concrete environment whose lexer yields the
mermaid fence `graph TD\nA-->B`. -/
theorem mermaid_block_verbatim_witness :
    (∃ p q, (parseMarkdown envM [] "```mermaid\ngraph TD\nA-->B\n```").2.html
        = p ++ ("<div class=\"mermaid\">" ++ "graph TD\nA-->B" ++ "</div>") ++ q) ∧
    rendererCode envM "graph TD\nA-->B" (some "mermaid")
        = "<div class=\"mermaid\">" ++ "graph TD\nA-->B" ++ "</div>" ∧
    (∀ env' : ExtEnv, rendererCode env' "graph TD\nA-->B" (some "mermaid")
        = "<div class=\"mermaid\">" ++ "graph TD\nA-->B" ++ "</div>") :=
  mermaid_block_verbatim envM [] "```mermaid\ngraph TD\nA-->B\n```" "graph TD\nA-->B"
    (by simp [envM, env0])

/-! ## Asset-path rewriting (claim C7) -/

/-- C7: the `rewriteAssetPaths` replacer leaves `http://`, `https://`,
`data:` and root-relative `src` values untouched and rebases every
other (relative) `src` into the `/assets` namespace joined with the
file's directory and normalized; in particular for a file in `docs/`
the reference `../assets/photo.jpg` becomes `/assets/assets/photo.jpg`
while an `https://` URL is unchanged. -/
theorem rewrite_asset_src_contract :
    (∀ fileDir pre src suf : String,
      (strStartsWith src "http://" || strStartsWith src "https://" ||
        strStartsWith src "data:" || strStartsWith src "/") = true →
      rewriteAssetSrc fileDir pre src suf = pre ++ src ++ suf) ∧
    (∀ fileDir pre src suf : String,
      (strStartsWith src "http://" || strStartsWith src "https://" ||
        strStartsWith src "data:" || strStartsWith src "/") = false →
      rewriteAssetSrc fileDir pre src suf
        = pre ++ posixNormalize (posixJoin3 "/assets" fileDir src) ++ suf) ∧
    (∀ pre suf : String,
      rewriteAssetSrc (posixDirname "docs/guide.md") pre "../assets/photo.jpg" suf
        = pre ++ "/assets/assets/photo.jpg" ++ suf) ∧
    (∀ pre suf : String,
      rewriteAssetSrc (posixDirname "docs/guide.md") pre "https://example.com/img.png" suf
        = pre ++ "https://example.com/img.png" ++ suf) := by
  refine ⟨?_, ?_, ?_, ?_⟩
  · intro fileDir pre src suf h
    simp [rewriteAssetSrc, h]
  · intro fileDir pre src suf h
    simp [rewriteAssetSrc, h]
  · intro pre suf
    have hc : (strStartsWith "../assets/photo.jpg" "http://" ||
        strStartsWith "../assets/photo.jpg" "https://" ||
        strStartsWith "../assets/photo.jpg" "data:" ||
        strStartsWith "../assets/photo.jpg" "/") = false := by decide
    have hn : posixNormalize (posixJoin3 "/assets" (posixDirname "docs/guide.md")
        "../assets/photo.jpg") = "/assets/assets/photo.jpg" := by decide
    simp [rewriteAssetSrc, hc, hn]
  · intro pre suf
    have hc : (strStartsWith "https://example.com/img.png" "http://" ||
        strStartsWith "https://example.com/img.png" "https://" ||
        strStartsWith "https://example.com/img.png" "data:" ||
        strStartsWith "https://example.com/img.png" "/") = true := by decide
    simp [rewriteAssetSrc, hc]

/-- Witness for C7 at concrete match parts. -/
theorem rewrite_asset_src_contract_witness :
    rewriteAssetSrc "docs" "<img src=\"" "https://example.com/img.png" "\">"
      = "<img src=\"" ++ "https://example.com/img.png" ++ "\">" ∧
    rewriteAssetSrc "docs" "<img src=\"" "../assets/photo.jpg" "\">"
      = "<img src=\"" ++ posixNormalize (posixJoin3 "/assets" "docs" "../assets/photo.jpg") ++ "\">" :=
  ⟨rewrite_asset_src_contract.1 "docs" "<img src=\"" "https://example.com/img.png" "\">" (by decide),
   rewrite_asset_src_contract.2.1 "docs" "<img src=\"" "../assets/photo.jpg" "\">" (by decide)⟩

/-! ## Infix lemmas for the traversal check -/

theorem splitCh_cons_head (cs : List Char) :
    ∃ s ss, splitCh cs = s :: ss ∧ s.isPrefixOf cs = true := by
  induction cs with
  | nil => exact ⟨[], [], rfl, rfl⟩
  | cons c rest ih =>
    by_cases hc : c = '/'
    · refine ⟨[], splitCh rest, ?_, rfl⟩
      simp [splitCh, hc]
    · rcases ih with ⟨s, ss, hs, hp⟩
      refine ⟨c :: s, ss, ?_, ?_⟩
      · simp [splitCh, hc, hs]
      · simpa [List.isPrefixOf] using hp

theorem mem_splitCh_infix {seg : List Char} :
    ∀ cs : List Char, seg ∈ splitCh cs → seg <:+: cs := by
  intro cs
  induction cs with
  | nil =>
    intro h
    simp only [splitCh, List.mem_singleton] at h
    subst h
    exact List.nil_infix
  | cons c rest ih =>
    intro h
    by_cases hc : c = '/'
    · simp only [splitCh, hc, if_pos rfl] at h
      rcases List.mem_cons.mp h with rfl | h'
      · exact List.nil_infix
      · exact List.infix_cons (ih h')
    · rcases splitCh_cons_head rest with ⟨s, ss, hs, hp⟩
      simp only [splitCh, hc, if_neg hc, hs] at h
      rcases List.mem_cons.mp h with rfl | h'
      · have hpre : s <+: rest := by
          exact List.isPrefixOf_iff_prefix.mp hp
        have : c :: s <+: c :: rest := List.prefix_cons_inj c |>.mpr hpre
        exact this.isInfix
      · have hmem : seg ∈ splitCh rest := by
          rw [hs]; exact List.mem_cons_of_mem s h'
        exact List.infix_cons (ih hmem)

theorem listHasInfix_of_isPrefixOf {pat l : List Char} (h : pat.isPrefixOf l = true) :
    listHasInfix pat l = true := by
  cases l with
  | nil =>
    cases pat with
    | nil => rfl
    | cons a b => simp [List.isPrefixOf] at h
  | cons x xs => simp [listHasInfix, h]

theorem listHasInfix_of_infix {pat l : List Char} (h : pat <:+: l) :
    listHasInfix pat l = true := by
  rcases h with ⟨l₁, l₂, rfl⟩
  induction l₁ with
  | nil =>
    have : pat.isPrefixOf (pat ++ l₂) = true :=
      List.isPrefixOf_iff_prefix.mpr ⟨l₂, rfl⟩
    simpa using listHasInfix_of_isPrefixOf this
  | cons c cs ih =>
    simp only [List.cons_append, listHasInfix]
    rw [Bool.or_eq_true]
    refine Or.inr ?_
    simpa [List.append_assoc] using ih

theorem strIncludes_of_hasUpSegment {s : String} (h : hasUpSegment s = true) :
    strIncludes s ".." = true := by
  have hmem : ['.', '.'] ∈ splitCh s.data := by
    simpa [hasUpSegment] using h
  have hinf : ['.', '.'] <:+: s.data := mem_splitCh_infix s.data hmem
  simpa [strIncludes] using listHasInfix_of_infix hinf

/-! ## Content endpoint (claims C1, C9, C10) -/

/-- C1: for every `/api/content` request — a missing (or empty, JS
falsy) `file` parameter yields `400`; a normalized path containing an
up-traversal segment or starting from the filesystem root yields `403`
with no filesystem access at all (so the target is never read); a
validated path that does not exist yields `404` (a status and message
distinct from every validation error) after only a `stat`; otherwise
the handler returns `200` with the normalized file name, the rewritten
HTML, the heading outline and the raw text. -/
theorem content_endpoint_contract (env : ExtEnv) (σ : List Heading) (mode : Mode)
    (targetPath basePath : String) (fs : FileSys) :
    (∀ q : Option String, q.getD "" = "" →
      contentHandler env σ mode targetPath basePath fs q
        = ((400, ContentReply.err "File parameter is required"), [])) ∧
    (∀ f : String,
      hasUpSegment (posixNormalize f) = true ∨ strStartsWith (posixNormalize f) "/" = true →
      contentHandler env σ mode targetPath basePath fs (some f)
        = ((403, ContentReply.err "Invalid file path"), [])) ∧
    (∀ f : String, f ≠ "" →
      strIncludes (posixNormalize f) ".." = false →
      strStartsWith (posixNormalize f) "/" = false →
      strStartsWith (contentResolved mode targetPath basePath f) (posixResolve1 basePath) = true →
      fileExists fs (contentResolved mode targetPath basePath f) = false →
      contentHandler env σ mode targetPath basePath fs (some f)
        = ((404, ContentReply.err "File not found"),
           [FsAccess.statOf (contentResolved mode targetPath basePath f)])) ∧
    (((404 : Nat), ContentReply.err "File not found")
        ≠ ((400 : Nat), ContentReply.err "File parameter is required") ∧
     ((404 : Nat), ContentReply.err "File not found")
        ≠ ((403 : Nat), ContentReply.err "Invalid file path") ∧
     ((404 : Nat), ContentReply.err "File not found")
        ≠ ((403 : Nat), ContentReply.err "Access denied")) ∧
    (∀ f : String, f ≠ "" →
      strIncludes (posixNormalize f) ".." = false →
      strStartsWith (posixNormalize f) "/" = false →
      strStartsWith (contentResolved mode targetPath basePath f) (posixResolve1 basePath) = true →
      fileExists fs (contentResolved mode targetPath basePath f) = true →
      contentHandler env σ mode targetPath basePath fs (some f)
        = ((200, ContentReply.ok (posixNormalize f)
            (env.imgReplace
              (parseMarkdown env σ (fs.read (contentResolved mode targetPath basePath f))).2.html
              (rewriteAssetSrc (if mode = Mode.file then "" else posixDirname (posixNormalize f))))
            (fs.read (contentResolved mode targetPath basePath f))
            (parseMarkdown env σ (fs.read (contentResolved mode targetPath basePath f))).2.headings),
           [FsAccess.statOf (contentResolved mode targetPath basePath f),
            FsAccess.readOf (contentResolved mode targetPath basePath f)])) := by
  refine ⟨?_, ?_, ?_, ⟨by decide, by decide, by decide⟩, ?_⟩
  · intro q h
    simp [contentHandler, h]
  · intro f h
    by_cases hf : f = ""
    · subst hf
      rcases h with h | h
      · exact absurd h (by decide)
      · exact absurd h (by decide)
    · have hcond : (strIncludes (posixNormalize f) ".."
          || strStartsWith (posixNormalize f) "/") = true := by
        rcases h with h | h
        · simp [strIncludes_of_hasUpSegment h]
        · simp [h]
      simp [contentHandler, hf, hcond]
  · intro f hf h1 h2 h3 h4
    simp [contentHandler, hf, h1, h2, h3, h4]
  · intro f hf h1 h2 h3 h4
    simp [contentHandler, hf, h1, h2, h3, h4]

/-- Witness for C1: all five branches at concrete requests against the
concrete filesystem `fs1` rooted at `/root`. -/
theorem content_endpoint_contract_witness :
    contentHandler env0 [] Mode.directory "." "/root" fs1 none
      = ((400, ContentReply.err "File parameter is required"), []) ∧
    contentHandler env0 [] Mode.directory "." "/root" fs1 (some "../../../etc/passwd")
      = ((403, ContentReply.err "Invalid file path"), []) ∧
    contentHandler env0 [] Mode.directory "." "/root" fs1 (some "/etc/passwd")
      = ((403, ContentReply.err "Invalid file path"), []) ∧
    contentHandler env0 [] Mode.directory "." "/root" fs1 (some "nope.md")
      = ((404, ContentReply.err "File not found"), [FsAccess.statOf "/root/nope.md"]) ∧
    contentHandler env0 [] Mode.directory "." "/root" fs1 (some "a.md")
      = ((200, ContentReply.ok "a.md" "" "# Hi" []),
         [FsAccess.statOf "/root/a.md", FsAccess.readOf "/root/a.md"]) := by
  have h := content_endpoint_contract env0 [] Mode.directory "." "/root" fs1
  refine ⟨h.1 none rfl,
    h.2.1 "../../../etc/passwd" (Or.inl (by decide)),
    h.2.1 "/etc/passwd" (Or.inr (by decide)), ?_, ?_⟩
  · exact (h.2.2.1 "nope.md" (by decide) (by decide) (by decide) (by decide)
      (by decide)).trans (by decide)
  · exact (h.2.2.2.2 "a.md" (by decide) (by decide) (by decide) (by decide)
      (by decide)).trans (by decide)

/-- C9 (implicit): the traversal check is `normalizedPath.includes('..')`
— it rejects any request whose normalized path contains the
two-character substring `".."` anywhere, with a `403 "Invalid file
path"` and no filesystem access; in particular the ordinary file name
`notes..md`, which contains no up-traversal segment and is an eligible
markdown name, is rejected, so the rejection is strictly broader than
"contains an up-traversal segment". -/
theorem content_rejects_dotdot_substring (env : ExtEnv) (σ : List Heading) (mode : Mode)
    (targetPath basePath : String) (fs : FileSys) :
    (∀ f : String, strIncludes (posixNormalize f) ".." = true →
      contentHandler env σ mode targetPath basePath fs (some f)
        = ((403, ContentReply.err "Invalid file path"), [])) ∧
    contentHandler env σ mode targetPath basePath fs (some "notes..md")
      = ((403, ContentReply.err "Invalid file path"), []) ∧
    hasUpSegment (posixNormalize "notes..md") = false ∧
    isMarkdownFile "notes..md" = true := by
  have main : ∀ f : String, strIncludes (posixNormalize f) ".." = true →
      contentHandler env σ mode targetPath basePath fs (some f)
        = ((403, ContentReply.err "Invalid file path"), []) := by
    intro f h
    by_cases hf : f = ""
    · subst hf
      exact absurd h (by decide)
    · have hcond : (strIncludes (posixNormalize f) ".."
          || strStartsWith (posixNormalize f) "/") = true := by simp [h]
      simp [contentHandler, hf, hcond]
  exact ⟨main, main "notes..md" (by decide), by decide, by decide⟩

/-- Witness for C9 at a concrete path with a `".."` substring but no
up-traversal segment. -/
theorem content_rejects_dotdot_substring_witness :
    contentHandler env0 [] Mode.directory "." "/root" fs1 (some "notes..md")
      = ((403, ContentReply.err "Invalid file path"), []) :=
  (content_rejects_dotdot_substring env0 [] Mode.directory "." "/root" fs1).1
    "notes..md" (by decide)

/-- C10 (implicit): `fileExists` is `stat`-based and returns `true` for
any existing path, directories included; consequently a content request
whose resolved path names an existing directory passes the 404 check
and proceeds to the file-read step (the directory path is handed to
`readFile`). -/
theorem fileExists_directory_passes (env : ExtEnv) (σ : List Heading)
    (targetPath basePath : String) (fs : FileSys) :
    (∀ p : String, fs.kind p = some FsKind.directory → fileExists fs p = true) ∧
    (∀ f : String, f ≠ "" →
      strIncludes (posixNormalize f) ".." = false →
      strStartsWith (posixNormalize f) "/" = false →
      strStartsWith (contentResolved Mode.directory targetPath basePath f)
        (posixResolve1 basePath) = true →
      fs.kind (contentResolved Mode.directory targetPath basePath f) = some FsKind.directory →
      contentHandler env σ Mode.directory targetPath basePath fs (some f)
        = ((200, ContentReply.ok (posixNormalize f)
            (env.imgReplace
              (parseMarkdown env σ
                (fs.read (contentResolved Mode.directory targetPath basePath f))).2.html
              (rewriteAssetSrc (posixDirname (posixNormalize f))))
            (fs.read (contentResolved Mode.directory targetPath basePath f))
            (parseMarkdown env σ
              (fs.read (contentResolved Mode.directory targetPath basePath f))).2.headings),
           [FsAccess.statOf (contentResolved Mode.directory targetPath basePath f),
            FsAccess.readOf (contentResolved Mode.directory targetPath basePath f)])) := by
  constructor
  · intro p h
    simp [fileExists, h]
  · intro f hf h1 h2 h3 h4
    have hex : fileExists fs (contentResolved Mode.directory targetPath basePath f) = true := by
      simp [fileExists, h4]
    simp [contentHandler, hf, h1, h2, h3, hex]

/-- Witness for C10: requesting the existing directory `docs` under
`/root` returns `200` and reads the directory path. -/
theorem fileExists_directory_passes_witness :
    fileExists fs1 "/root/docs" = true ∧
    contentHandler env0 [] Mode.directory "." "/root" fs1 (some "docs")
      = ((200, ContentReply.ok "docs" "" "" []),
         [FsAccess.statOf "/root/docs", FsAccess.readOf "/root/docs"]) := by
  have h := fileExists_directory_passes env0 [] "." "/root" fs1
  refine ⟨h.1 "/root/docs" (by decide), ?_⟩
  exact (h.2 "docs" (by decide) (by decide) (by decide) (by decide) (by decide)).trans
    (by decide)

/-! ## Tree well-formedness (claim C4) -/

theorem nodeLe_total {lc : String → String → Int}
    (hto : ∀ a b, lc a b ≤ 0 ∨ lc b a ≤ 0) (a b : TreeNode) :
    nodeLe lc a b = true ∨ nodeLe lc b a = true := by
  unfold nodeLe nodeCompare
  cases ha : a.isDir <;> cases hb : b.isDir <;> simp [ha, hb] <;>
    exact hto a.name b.name

theorem nodeLe_trans {lc : String → String → Int}
    (htr : ∀ a b c, lc a b ≤ 0 → lc b c ≤ 0 → lc a c ≤ 0) (a b c : TreeNode) :
    nodeLe lc a b = true → nodeLe lc b c = true → nodeLe lc a c = true := by
  unfold nodeLe nodeCompare
  cases ha : a.isDir <;> cases hb : b.isDir <;> cases hc : c.isDir <;>
    simp [ha, hb, hc] <;> exact htr a.name b.name c.name

theorem dirsBeforeFilesAlpha_of_nodeLe {lc : String → String → Int} {a b : TreeNode}
    (h : nodeLe lc a b = true) : dirsBeforeFilesAlpha lc a b = true := by
  unfold nodeLe nodeCompare at h
  unfold dirsBeforeFilesAlpha
  cases ha : a.isDir <;> cases hb : b.isDir <;> simp [ha, hb] at h ⊢ <;> exact h

theorem siblingsOrdered_of_pairwise {lc : String → String → Int} :
    ∀ {l : List TreeNode},
      List.Pairwise (fun a b => nodeLe lc a b = true) l → siblingsOrdered lc l = true := by
  intro l h
  induction l with
  | nil => rfl
  | cons a rest ih =>
    rcases List.pairwise_cons.mp h with ⟨ha, hrest⟩
    cases rest with
    | nil => rfl
    | cons b rest' =>
      have hab : nodeLe lc a b = true := ha b (List.mem_cons_self b rest')
      simp only [siblingsOrdered]
      rw [dirsBeforeFilesAlpha_of_nodeLe hab, ih hrest]
      rfl

theorem forestWf_iff_mem {lc : String → String → Int} :
    ∀ l : List TreeNode, forestWf lc l = true ↔ ∀ n ∈ l, nodeWf lc n = true := by
  intro l
  induction l with
  | nil => simp [forestWf]
  | cons n rest ih =>
    simp only [forestWf, Bool.and_eq_true, ih, List.mem_cons]
    constructor
    · rintro ⟨h1, h2⟩ x (rfl | hx)
      · exact h1
      · exact h2 x hx
    · intro h
      exact ⟨h n (Or.inl rfl), fun x hx => h x (Or.inr hx)⟩

theorem anyEligible_of_forestWf {lc : String → String → Int} :
    ∀ {l : List TreeNode}, forestWf lc l = true → l ≠ [] → anyEligible l = true := by
  intro l h hne
  cases l with
  | nil => exact absurd rfl hne
  | cons n rest =>
    have h1 : nodeWf lc n = true :=
      (forestWf_iff_mem (n :: rest)).mp h n (List.mem_cons_self n rest)
    cases n with
    | file name p =>
      have hmd : isMarkdownFile name = true := by
        simp only [nodeWf, Bool.and_eq_true] at h1
        exact h1.1
      simp [anyEligible, nodeEligible, hmd]
    | dir name p cs =>
      have heli : anyEligible cs = true := by
        simp only [nodeWf, Bool.and_eq_true] at h1
        exact h1.1.1.2
      simp [anyEligible, nodeEligible, heli]

theorem buildEntry_ignored (pm : PathMod) (lc : String → String → Int)
    (t : FSEntry) (dp bp : String)
    (hig : IGNORE_PATTERNS.contains t.name = true) :
    buildEntry pm lc t dp bp = [] := by
  unfold buildEntry
  have hmem : t.name ∈ IGNORE_PATTERNS := by simpa using hig
  simp [hmem]

theorem buildEntry_file_md (pm : PathMod) (lc : String → String → Int) (n : String)
    (dp bp : String)
    (hig : IGNORE_PATTERNS.contains n = false) (hmd : isMarkdownFile n = true) :
    buildEntry pm lc (FSEntry.file n) dp bp
      = [TreeNode.file n (pm.relative bp (pm.join dp n))] := by
  unfold buildEntry
  have hnot : n ∉ IGNORE_PATTERNS := by simpa using hig
  simp [FSEntry.name, hnot, hmd]

theorem buildEntry_file_nonmd (pm : PathMod) (lc : String → String → Int) (n : String)
    (dp bp : String)
    (hig : IGNORE_PATTERNS.contains n = false) (hmd : isMarkdownFile n = false) :
    buildEntry pm lc (FSEntry.file n) dp bp = [] := by
  unfold buildEntry
  have hnot : n ∉ IGNORE_PATTERNS := by simpa using hig
  simp [FSEntry.name, hnot, hmd]

theorem buildEntry_dir_kept (pm : PathMod) (lc : String → String → Int) (n : String)
    (entries : List FSEntry) (dp bp : String)
    (hig : IGNORE_PATTERNS.contains n = false)
    (hcond : (decide ((sortLe (nodeLe lc) (buildNodes pm lc entries (pm.join dp n) bp)).length > 0)
      || hasMarkdownFiles (sortLe (nodeLe lc) (buildNodes pm lc entries (pm.join dp n) bp))) = true) :
    buildEntry pm lc (FSEntry.dir n entries) dp bp
      = [TreeNode.dir n (pm.relative bp (pm.join dp n))
          (sortLe (nodeLe lc) (buildNodes pm lc entries (pm.join dp n) bp))] := by
  unfold buildEntry
  have hnot : n ∉ IGNORE_PATTERNS := by simpa using hig
  have hc : 0 < (sortLe (nodeLe lc) (buildNodes pm lc entries (pm.join dp n) bp)).length
      ∨ hasMarkdownFiles (sortLe (nodeLe lc) (buildNodes pm lc entries (pm.join dp n) bp)) = true := by
    simpa using hcond
  simp [FSEntry.name, hnot, hc]

theorem buildEntry_dir_dropped (pm : PathMod) (lc : String → String → Int) (n : String)
    (entries : List FSEntry) (dp bp : String)
    (hig : IGNORE_PATTERNS.contains n = false)
    (hcond : (decide ((sortLe (nodeLe lc) (buildNodes pm lc entries (pm.join dp n) bp)).length > 0)
      || hasMarkdownFiles (sortLe (nodeLe lc) (buildNodes pm lc entries (pm.join dp n) bp))) = false) :
    buildEntry pm lc (FSEntry.dir n entries) dp bp = [] := by
  unfold buildEntry
  have hnot : n ∉ IGNORE_PATTERNS := by simpa using hig
  have hc : ¬ (0 < (sortLe (nodeLe lc) (buildNodes pm lc entries (pm.join dp n) bp)).length
      ∨ hasMarkdownFiles (sortLe (nodeLe lc) (buildNodes pm lc entries (pm.join dp n) bp)) = true) := by
    simpa using hcond
  simp [FSEntry.name, hnot, hc]

theorem buildNodes_wf (pm : PathMod) (lc : String → String → Int)
    (hto : ∀ a b, lc a b ≤ 0 ∨ lc b a ≤ 0)
    (htr : ∀ a b c, lc a b ≤ 0 → lc b c ≤ 0 → lc a c ≤ 0) :
    ∀ (entries : List FSEntry) (dirPath basePath : String),
      ∀ n ∈ buildNodes pm lc entries dirPath basePath, nodeWf lc n = true := by
  refine buildNodes.induct pm lc
    (fun e dirPath basePath =>
      ∀ n ∈ buildEntry pm lc e dirPath basePath, nodeWf lc n = true)
    (fun entries dirPath basePath =>
      ∀ n ∈ buildNodes pm lc entries dirPath basePath, nodeWf lc n = true)
    ?_ ?_ ?_ ?_ ?_ ?_ ?_
  · intro t dp bp hig x hx
    rw [buildEntry_ignored pm lc t dp bp hig] at hx
    cases hx
  · intro dp bp n hmd hig x hx
    have hig' : IGNORE_PATTERNS.contains n = false := by simpa using hig
    rw [buildEntry_file_md pm lc n dp bp hig' hmd] at hx
    rcases List.mem_singleton.mp hx with rfl
    have hnot : n ∉ IGNORE_PATTERNS := by simpa using hig'
    simp [nodeWf, hmd, hnot]
  · intro dp bp n hmd hig x hx
    have hig' : IGNORE_PATTERNS.contains n = false := by simpa using hig
    have hmd' : isMarkdownFile n = false := by simpa using hmd
    rw [buildEntry_file_nonmd pm lc n dp bp hig' hmd'] at hx
    cases hx
  · intro dp bp n entries fullPath children hcond hig ih x hx
    have hig' : IGNORE_PATTERNS.contains n = false := by simpa using hig
    rw [buildEntry_dir_kept pm lc n entries dp bp hig' hcond] at hx
    rcases List.mem_singleton.mp hx with rfl
    have hnot : n ∉ IGNORE_PATTERNS := by simpa using hig'
    have hmemwf : ∀ m ∈ sortLe (nodeLe lc)
        (buildNodes pm lc entries (pm.join dp n) bp), nodeWf lc m = true := by
      intro m hm
      exact ih m ((sortLe_perm (nodeLe lc) _).mem_iff.mp hm)
    have hwf : forestWf lc (sortLe (nodeLe lc)
        (buildNodes pm lc entries (pm.join dp n) bp)) = true :=
      (forestWf_iff_mem _).mpr hmemwf
    have hne : sortLe (nodeLe lc) (buildNodes pm lc entries (pm.join dp n) bp) ≠ [] := by
      intro hnil
      have : (decide ((sortLe (nodeLe lc)
          (buildNodes pm lc entries (pm.join dp n) bp)).length > 0)
          || hasMarkdownFiles (sortLe (nodeLe lc)
            (buildNodes pm lc entries (pm.join dp n) bp))) = true := hcond
      rw [hnil] at this
      simp [hasMarkdownFiles] at this
    have heli : anyEligible (sortLe (nodeLe lc)
        (buildNodes pm lc entries (pm.join dp n) bp)) = true :=
      anyEligible_of_forestWf hwf hne
    have hord : siblingsOrdered lc (sortLe (nodeLe lc)
        (buildNodes pm lc entries (pm.join dp n) bp)) = true :=
      siblingsOrdered_of_pairwise (sortLe_pairwise (nodeLe_trans htr) (nodeLe_total hto) _)
    simp [nodeWf, hnot, heli, hord, hwf]
  · intro dp bp n entries fullPath children hcond hig ih x hx
    have hig' : IGNORE_PATTERNS.contains n = false := by simpa using hig
    have hcond' : (decide ((sortLe (nodeLe lc)
        (buildNodes pm lc entries (pm.join dp n) bp)).length > 0)
        || hasMarkdownFiles (sortLe (nodeLe lc)
          (buildNodes pm lc entries (pm.join dp n) bp))) = false := by
      simpa using hcond
    rw [buildEntry_dir_dropped pm lc n entries dp bp hig' hcond'] at hx
    cases hx
  · intro dp bp x hx
    simp [buildNodes] at hx
  · intro e rest dp bp ih1 ih2 x hx
    simp only [buildNodes, List.mem_append] at hx
    rcases hx with hx | hx
    · exact ih1 x hx
    · exact ih2 x hx

/-- C4: every tree `buildFileTree` returns is well-formed at every
level — each directory node holds (transitively) at least one eligible
`.md`/`.markdown` file (empty or all-ineligible subtrees are pruned),
no node at any depth carries one of the ignored names
(`node_modules`, `.git`, `.DS_Store`, `dist`, `.next`, `.cache`), and
every sibling list has all directories before all files with names
non-descending within each group under the host comparator `lc`
(assumed total and transitive, as `localeCompare` is). -/
theorem build_file_tree_wellformed (pm : PathMod) (lc : String → String → Int)
    (hto : ∀ a b, lc a b ≤ 0 ∨ lc b a ≤ 0)
    (htr : ∀ a b c, lc a b ≤ 0 → lc b c ≤ 0 → lc a c ≤ 0)
    (entries : List FSEntry) (dirPath basePath : String) :
    forestWf lc (buildFileTree pm lc entries dirPath basePath) = true ∧
    siblingsOrdered lc (buildFileTree pm lc entries dirPath basePath) = true := by
  constructor
  · rw [forestWf_iff_mem]
    intro n hn
    simp only [buildFileTree] at hn
    exact buildNodes_wf pm lc hto htr entries dirPath basePath n
      ((sortLe_perm (nodeLe lc) _).mem_iff.mp hn)
  · simp only [buildFileTree]
    exact siblingsOrdered_of_pairwise
      (sortLe_pairwise (nodeLe_trans htr) (nodeLe_total hto) _)

theorem lcStd_le_iff (a b : String) : lcStd a b ≤ 0 ↔ a ≤ b := by
  unfold lcStd
  rcases lt_trichotomy a b with h | h | h
  · simp [h, le_of_lt h]
  · subst h
    simp
  · rw [if_neg (not_lt.mpr (le_of_lt h)), if_pos h]
    simp [not_le.mpr h]

theorem lcStd_total (a b : String) : lcStd a b ≤ 0 ∨ lcStd b a ≤ 0 := by
  rw [lcStd_le_iff, lcStd_le_iff]
  exact le_total a b

theorem lcStd_trans (a b c : String) :
    lcStd a b ≤ 0 → lcStd b c ≤ 0 → lcStd a c ≤ 0 := by
  rw [lcStd_le_iff, lcStd_le_iff, lcStd_le_iff]
  exact le_trans

/-- Witness for C4 on a concrete listing (with a nested directory, a
non-markdown file and a `node_modules` entry). -/
theorem build_file_tree_wellformed_witness :
    forestWf lcStd (buildFileTree posixPm lcStd entries1 "/root" "/root") = true ∧
    siblingsOrdered lcStd (buildFileTree posixPm lcStd entries1 "/root" "/root") = true :=
  build_file_tree_wellformed posixPm lcStd lcStd_total lcStd_trans entries1 "/root" "/root"

/-! ## Canonical-path lemmas (claim C5) -/

/-- A segment (as characters) that the path algebra leaves untouched:
non-empty, separator-free and not a dot segment. -/
def cleanSeg (s : List Char) : Prop :=
  s ≠ [] ∧ '/' ∉ s ∧ s ≠ ['.'] ∧ s ≠ ['.', '.']

theorem cleanSeg_of_validSeg {s : String} (h : validSeg s = true) : cleanSeg s.data := by
  unfold validSeg at h
  simp only [Bool.and_eq_true, decide_eq_true_eq, Bool.not_eq_true'] at h
  obtain ⟨⟨⟨h1, h2⟩, h3⟩, h4⟩ := h
  refine ⟨?_, ?_, ?_, ?_⟩
  · intro hd
    exact h1 (by cases s with | mk d => cases hd; rfl)
  · intro hc
    have : '/' ∉ s.data := by simpa using h2
    exact this hc
  · intro hd
    exact h3 (by cases s with | mk d => cases hd; rfl)
  · intro hd
    exact h4 (by cases s with | mk d => cases hd; rfl)

theorem splitCh_no_sep {s : List Char} (h : '/' ∉ s) : splitCh s = [s] := by
  induction s with
  | nil => rfl
  | cons c rest ih =>
    have hc : ¬ c = '/' := fun hc => h (hc ▸ List.mem_cons_self c rest)
    have hrest : '/' ∉ rest := fun hr => h (List.mem_cons_of_mem c hr)
    simp [splitCh, hc, ih hrest]

theorem splitCh_append_sep {s : List Char} (t : List Char) (h : '/' ∉ s) :
    splitCh (s ++ '/' :: t) = s :: splitCh t := by
  induction s with
  | nil => simp [splitCh]
  | cons c rest ih =>
    have hc : ¬ c = '/' := fun hc => h (hc ▸ List.mem_cons_self c rest)
    have hrest : '/' ∉ rest := fun hr => h (List.mem_cons_of_mem c hr)
    show splitCh (c :: (rest ++ '/' :: t)) = (c :: rest) :: splitCh t
    rw [splitCh, if_neg hc, ih hrest]

theorem splitCh_joinCh {segs : List (List Char)} (hne : segs ≠ [])
    (h : ∀ s ∈ segs, '/' ∉ s) : splitCh (joinCh segs) = segs := by
  induction segs with
  | nil => exact absurd rfl hne
  | cons s rest ih =>
    cases rest with
    | nil => exact splitCh_no_sep (h s (List.mem_cons_self s []))
    | cons s₂ rest' =>
      have hs : '/' ∉ s := h s (List.mem_cons_self s _)
      have : joinCh (s :: s₂ :: rest') = s ++ '/' :: joinCh (s₂ :: rest') := rfl
      rw [this, splitCh_append_sep _ hs,
        ih (by simp) (fun x hx => h x (List.mem_cons_of_mem s hx))]

theorem splitCh_joinCh_append {segs : List (List Char)} (t : List Char) (hne : segs ≠ [])
    (h : ∀ s ∈ segs, '/' ∉ s) :
    splitCh (joinCh segs ++ '/' :: t) = segs ++ splitCh t := by
  induction segs with
  | nil => exact absurd rfl hne
  | cons s rest ih =>
    cases rest with
    | nil =>
      have hs : '/' ∉ s := h s (List.mem_cons_self s [])
      simpa [joinCh] using splitCh_append_sep t hs
    | cons s₂ rest' =>
      have hs : '/' ∉ s := h s (List.mem_cons_self s _)
      have hj : joinCh (s :: s₂ :: rest') = s ++ '/' :: joinCh (s₂ :: rest') := rfl
      rw [hj, List.append_assoc, List.cons_append]
      rw [splitCh_append_sep _ hs]
      rw [ih (by simp) (fun x hx => h x (List.mem_cons_of_mem s hx))]
      rfl

theorem normSegsAux_clean (allowUp : Bool) :
    ∀ (segs res : List (List Char)),
      (∀ s ∈ segs, s ≠ [] ∧ s ≠ ['.'] ∧ s ≠ ['.', '.']) →
      normSegsAux allowUp res segs = res.reverse ++ segs := by
  intro segs
  induction segs with
  | nil => intro res h; simp [normSegsAux]
  | cons s rest ih =>
    intro res h
    obtain ⟨h1, h2, h3⟩ := h s (List.mem_cons_self s rest)
    have hcond : ¬ (s = [] ∨ s = ['.']) := by
      rintro (h' | h')
      · exact h1 h'
      · exact h2 h'
    simp only [normSegsAux, if_neg hcond, if_neg h3]
    rw [ih (s :: res) (fun x hx => h x (List.mem_cons_of_mem s hx))]
    simp

theorem normSegsAux_skip_empty (allowUp : Bool) (res : List (List Char))
    (rest : List (List Char)) :
    normSegsAux allowUp res ([] :: rest) = normSegsAux allowUp res rest := by
  simp [normSegsAux]

theorem getLast?_append_right {l l' : List Char} (h : l' ≠ []) :
    (l ++ l').getLast? = l'.getLast? := by
  rw [List.getLast?_append]
  cases hl : l'.getLast? with
  | none => exact absurd (List.getLast?_eq_none_iff.mp hl) h
  | some c => rfl

theorem joinCh_ne_nil {segs : List (List Char)} (hne : segs ≠ [])
    (h : ∀ s ∈ segs, s ≠ []) : joinCh segs ≠ [] := by
  cases segs with
  | nil => exact absurd rfl hne
  | cons s rest =>
    cases rest with
    | nil => exact h s (List.mem_cons_self s [])
    | cons s₂ rest' =>
      show s ++ '/' :: joinCh (s₂ :: rest') ≠ []
      simp

theorem head?_joinCh {s : List Char} (rest : List (List Char)) (h : s ≠ []) :
    (joinCh (s :: rest)).head? = s.head? := by
  cases rest with
  | nil => rfl
  | cons s₂ rest' =>
    show (s ++ '/' :: joinCh (s₂ :: rest')).head? = s.head?
    exact List.head?_append_of_ne_nil _ h

theorem getLast?_joinCh_ne_sep {segs : List (List Char)} (hne : segs ≠ [])
    (h : ∀ s ∈ segs, s ≠ [] ∧ '/' ∉ s) :
    (joinCh segs).getLast? ≠ some '/' := by
  induction segs with
  | nil => exact absurd rfl hne
  | cons s rest ih =>
    cases rest with
    | nil =>
      obtain ⟨h1, h2⟩ := h s (List.mem_cons_self s [])
      show (joinCh [s]).getLast? ≠ some '/'
      intro hc
      exact h2 (List.mem_of_mem_getLast? hc)
    | cons s₂ rest' =>
      show (s ++ '/' :: joinCh (s₂ :: rest')).getLast? ≠ some '/'
      have hjoin : joinCh (s₂ :: rest') ≠ [] :=
        joinCh_ne_nil (by simp)
          (fun x hx => (h x (List.mem_cons_of_mem s hx)).1)
      have hstep : (s ++ '/' :: joinCh (s₂ :: rest')).getLast?
          = ('/' :: joinCh (s₂ :: rest')).getLast? :=
        getLast?_append_right (by simp)
      rw [hstep]
      have hsplit : ('/' :: joinCh (s₂ :: rest')) = ['/'] ++ joinCh (s₂ :: rest') := rfl
      rw [hsplit, getLast?_append_right hjoin]
      exact ih (by simp) (fun x hx => h x (List.mem_cons_of_mem s hx))

theorem cleanSegs_map {l : List String} (h : l.all validSeg = true) :
    ∀ s ∈ l.map String.data, cleanSeg s := by
  intro s hs
  rcases List.mem_map.mp hs with ⟨x, hx, rfl⟩
  exact cleanSeg_of_validSeg (List.all_eq_true.mp h x hx)

theorem mkAbs_data (segs : List String) :
    (mkAbs segs).data = '/' :: joinCh (segs.map String.data) := rfl

theorem slashJoin_data (segs : List String) :
    (slashJoin segs).data = joinCh (segs.map String.data) := rfl

theorem splitCh_cons_sep (l : List Char) : splitCh ('/' :: l) = [] :: splitCh l := by
  simp [splitCh]

theorem resolveSegs_mkAbs {segs : List String} (h : segs.all validSeg = true) :
    resolveSegs (mkAbs segs) = segs.map String.data := by
  have hclean := cleanSegs_map h
  unfold resolveSegs
  rw [mkAbs_data, splitCh_cons_sep, normSegsAux_skip_empty]
  cases hs : segs with
  | nil => rfl
  | cons d rest =>
    subst hs
    rw [splitCh_joinCh (by simp) (fun s hx => (hclean s hx).2.1)]
    rw [normSegsAux_clean false _ []
      (fun s hx => ⟨(hclean s hx).1, (hclean s hx).2.2.1, (hclean s hx).2.2.2⟩)]
    rfl

theorem normSegsAux_abs_concat {ds es : List String}
    (hd : ds.all validSeg = true) (he : es.all validSeg = true) (hne : es ≠ []) :
    normSegsAux false [] (splitCh ((mkAbs ds).data ++ '/' :: joinCh (es.map String.data)))
      = (ds ++ es).map String.data := by
  have hdc := cleanSegs_map hd
  have hec := cleanSegs_map he
  have hemap : es.map String.data ≠ [] := by simpa using hne
  rw [mkAbs_data]
  cases hds : ds with
  | nil =>
    subst hds
    show normSegsAux false [] (splitCh ('/' :: ([] ++ '/' :: joinCh (es.map String.data)))) = _
    rw [List.nil_append, splitCh_cons_sep, splitCh_cons_sep]
    rw [splitCh_joinCh hemap (fun s hx => (hec s hx).2.1)]
    rw [normSegsAux_skip_empty, normSegsAux_skip_empty]
    rw [normSegsAux_clean false _ []
      (fun s hx => ⟨(hec s hx).1, (hec s hx).2.2.1, (hec s hx).2.2.2⟩)]
    simp
  | cons d rest =>
    subst hds
    show normSegsAux false []
      (splitCh ('/' :: (joinCh ((d :: rest).map String.data) ++ '/' :: joinCh (es.map String.data)))) = _
    rw [splitCh_cons_sep]
    rw [splitCh_joinCh_append _ (by simp) (fun s hx => (hdc s hx).2.1)]
    rw [splitCh_joinCh hemap (fun s hx => (hec s hx).2.1)]
    rw [normSegsAux_skip_empty]
    rw [normSegsAux_clean false _ [] (by
      intro s hx
      rcases List.mem_append.mp hx with hx | hx
      · exact ⟨(hdc s hx).1, (hdc s hx).2.2.1, (hdc s hx).2.2.2⟩
      · exact ⟨(hec s hx).1, (hec s hx).2.2.1, (hec s hx).2.2.2⟩)]
    simp

theorem posixResolve2_slashJoin {bs es : List String}
    (hb : bs.all validSeg = true) (he : es.all validSeg = true) (hne : es ≠ []) :
    posixResolve2 (mkAbs bs) (slashJoin es) = mkAbs (bs ++ es) := by
  have hec := cleanSegs_map he
  have hhead : ¬ (slashJoin es).data.head? = some '/' := by
    intro hc
    cases hes : es with
    | nil => exact hne hes
    | cons e rest =>
      subst hes
      rw [slashJoin_data] at hc
      have he1 : cleanSeg e.data := hec e.data (by simp)
      rw [show ((e :: rest).map String.data) = e.data :: rest.map String.data from rfl] at hc
      rw [head?_joinCh _ he1.1] at hc
      exact he1.2.1 (List.mem_of_mem_head? hc)
  simp only [posixResolve2]
  rw [if_neg hhead, slashJoin_data]
  rw [normSegsAux_abs_concat hb he hne]
  rfl

theorem posixNormalize_abs (X : List Char)
    (hlast : ('/' :: X).getLast? ≠ some '/')
    (hbody : joinCh (normSegsAux false [] (splitCh ('/' :: X))) ≠ []) :
    posixNormalize (String.mk ('/' :: X))
      = String.mk ('/' :: joinCh (normSegsAux false [] (splitCh ('/' :: X)))) := by
  have hne : ¬ String.mk ('/' :: X) = "" := by
    intro h
    have := String.ext_iff.mp h
    simp at this
  simp only [posixNormalize, hne, if_neg hne]
  have hhead : (String.mk ('/' :: X)).data.head? = some '/' := rfl
  simp only [hhead]
  have hlast' : ¬ (String.mk ('/' :: X)).data.getLast? = some '/' := hlast
  simp only [hlast']
  simp [hbody]

theorem posixJoin2_mkAbs {ds : List String} {n : String}
    (hd : ds.all validSeg = true) (hn : validSeg n = true) :
    posixJoin2 (mkAbs ds) n = mkAbs (ds ++ [n]) := by
  have hnc := cleanSeg_of_validSeg hn
  have hnall : [n].all validSeg = true := by simp [hn]
  have hda : ¬ mkAbs ds = "" := by
    intro h
    have := String.ext_iff.mp h
    rw [mkAbs_data] at this
    simp at this
  have hna : ¬ n = "" := by
    intro h
    subst h
    exact hnc.1 rfl
  simp only [posixJoin2, posixJoinList]
  have hparts : [mkAbs ds, n].filter (fun a => a ≠ "") = [mkAbs ds, n] := by
    simp [List.filter, hda, hna]
  rw [hparts]
  have hnonnil : ¬ ([mkAbs ds, n] : List String) = [] := by simp
  rw [if_neg hnonnil]
  have hsegs : normSegsAux false [] (splitCh ('/' :: (joinCh (ds.map String.data)
      ++ '/' :: joinCh ([n].map String.data)))) = (ds ++ [n]).map String.data :=
    normSegsAux_abs_concat hd hnall (by simp)
  have hlast : (('/' : Char) :: (joinCh (ds.map String.data)
      ++ '/' :: joinCh ([n].map String.data))).getLast? ≠ some '/' := by
    have h1 : joinCh ([n].map String.data) ≠ [] := by
      show joinCh [n.data] ≠ []
      exact joinCh_ne_nil (by simp) (by simpa using hnc.1)
    have step1 : (('/' : Char) :: (joinCh (ds.map String.data)
        ++ '/' :: joinCh ([n].map String.data))).getLast?
        = ('/' :: joinCh ([n].map String.data)).getLast? := by
      show ((['/'] ++ joinCh (ds.map String.data))
        ++ '/' :: joinCh ([n].map String.data)).getLast? = _
      exact getLast?_append_right (by simp)
    have step2 : (('/' : Char) :: joinCh ([n].map String.data)).getLast?
        = (joinCh ([n].map String.data)).getLast? := by
      show ((['/'] : List Char) ++ joinCh ([n].map String.data)).getLast? = _
      exact getLast?_append_right h1
    rw [step1, step2]
    refine getLast?_joinCh_ne_sep (by simp) ?_
    intro s hs
    simp only [List.map_cons, List.map_nil, List.mem_singleton] at hs
    subst hs
    exact ⟨hnc.1, hnc.2.1⟩
  have hbody : joinCh (normSegsAux false [] (splitCh ('/' :: (joinCh (ds.map String.data)
      ++ '/' :: joinCh ([n].map String.data))))) ≠ [] := by
    rw [hsegs]
    refine joinCh_ne_nil (by simp) ?_
    intro s hs
    rcases List.mem_map.mp hs with ⟨x, hx, rfl⟩
    rcases List.mem_append.mp hx with hx | hx
    · exact (cleanSeg_of_validSeg (List.all_eq_true.mp hd x hx)).1
    · simp only [List.mem_singleton] at hx
      subst hx
      exact hnc.1
  have hform : String.mk (joinCh ([mkAbs ds, n].map String.data))
      = String.mk ('/' :: (joinCh (ds.map String.data) ++ '/' :: joinCh ([n].map String.data))) := rfl
  rw [hform, posixNormalize_abs _ hlast hbody, hsegs]
  rfl

theorem stripCommon_self_append :
    ∀ (a b : List (List Char)), stripCommon a (a ++ b) = ([], b) := by
  intro a
  induction a with
  | nil =>
    intro b
    cases b <;> rfl
  | cons x xs ih =>
    intro b
    simp [stripCommon, ih]

theorem posixRelative_mkAbs {bs es : List String}
    (hb : bs.all validSeg = true) (he : es.all validSeg = true) (hne : es ≠ []) :
    posixRelative (mkAbs bs) (mkAbs (bs ++ es)) = slashJoin es := by
  have hall : (bs ++ es).all validSeg = true := by
    rw [List.all_append]
    simp [hb, he]
  have h1 := resolveSegs_mkAbs hb
  have h2 := resolveSegs_mkAbs hall
  have hmapne : resolveSegs (mkAbs bs) ≠ resolveSegs (mkAbs (bs ++ es)) := by
    rw [h1, h2]
    intro heq
    have hlen := congrArg List.length heq
    simp at hlen
    exact hne hlen
  have hstr : ¬ mkAbs bs = mkAbs (bs ++ es) := fun h => hmapne (congrArg resolveSegs h)
  simp only [posixRelative]
  rw [if_neg hstr, if_neg hmapne, h1, h2, List.map_append, stripCommon_self_append]
  simp [slashJoin]

theorem specForestOk_iff_mem (base dirPath : String) (pre : List String) :
    ∀ l : List TreeNode,
      specForestOk base dirPath pre l = true ↔
        ∀ n ∈ l, specNodeOk base dirPath pre n = true := by
  intro l
  induction l with
  | nil => simp [specForestOk]
  | cons n rest ih =>
    simp only [specForestOk, Bool.and_eq_true, ih, List.mem_cons]
    constructor
    · rintro ⟨h1, h2⟩ x (rfl | hx)
      · exact h1
      · exact h2 x hx
    · intro h
      exact ⟨h n (Or.inl rfl), fun x hx => h x (Or.inr hx)⟩

theorem buildNodes_paths_posix (lc : String → String → Int) :
    ∀ (entries : List FSEntry) (dirPath basePath : String),
      ∀ bs pre : List String, bs.all validSeg = true → pre.all validSeg = true →
        fsValid entries = true → dirPath = mkAbs (bs ++ pre) → basePath = mkAbs bs →
        ∀ n ∈ buildNodes posixPm lc entries dirPath basePath,
          specNodeOk (mkAbs bs) dirPath pre n = true := by
  refine buildNodes.induct posixPm lc
    (fun e dirPath basePath =>
      ∀ bs pre : List String, bs.all validSeg = true → pre.all validSeg = true →
        entryValid e = true → dirPath = mkAbs (bs ++ pre) → basePath = mkAbs bs →
        ∀ n ∈ buildEntry posixPm lc e dirPath basePath,
          specNodeOk (mkAbs bs) dirPath pre n = true)
    (fun entries dirPath basePath =>
      ∀ bs pre : List String, bs.all validSeg = true → pre.all validSeg = true →
        fsValid entries = true → dirPath = mkAbs (bs ++ pre) → basePath = mkAbs bs →
        ∀ n ∈ buildNodes posixPm lc entries dirPath basePath,
          specNodeOk (mkAbs bs) dirPath pre n = true)
    ?_ ?_ ?_ ?_ ?_ ?_ ?_
  · -- ignored entry: nothing is produced
    intro t dp bp hig bs pre hb hp hv hdp hbp x hx
    rw [buildEntry_ignored posixPm lc t dp bp hig] at hx
    cases hx
  · -- eligible file
    intro dp bp n hmd hig bs pre hb hp hv hdp hbp x hx
    have hig' : IGNORE_PATTERNS.contains n = false := by simpa using hig
    rw [buildEntry_file_md posixPm lc n dp bp hig' hmd] at hx
    rcases List.mem_singleton.mp hx with rfl
    have hvn : validSeg n = true := by simpa [entryValid] using hv
    have hbs_pre : (bs ++ pre).all validSeg = true := by
      rw [List.all_append]
      simp [hb, hp]
    have hpre_n : (pre ++ [n]).all validSeg = true := by
      rw [List.all_append]
      simp [hp, hvn]
    subst hdp hbp
    have hjoin : posixPm.join (mkAbs (bs ++ pre)) n = mkAbs (bs ++ (pre ++ [n])) := by
      show posixJoin2 (mkAbs (bs ++ pre)) n = _
      rw [posixJoin2_mkAbs hbs_pre hvn, List.append_assoc]
    have hrel : posixPm.relative (mkAbs bs) (posixPm.join (mkAbs (bs ++ pre)) n)
        = slashJoin (pre ++ [n]) := by
      rw [hjoin]
      show posixRelative (mkAbs bs) (mkAbs (bs ++ (pre ++ [n]))) = _
      exact posixRelative_mkAbs hb hpre_n (by simp)
    have hres : posixResolve2 (mkAbs bs) (slashJoin (pre ++ [n]))
        = mkAbs (bs ++ (pre ++ [n])) :=
      posixResolve2_slashJoin hb hpre_n (by simp)
    have hjoin' : posixJoin2 (mkAbs (bs ++ pre)) n = mkAbs (bs ++ (pre ++ [n])) := hjoin
    simp only [specNodeOk, hrel, Bool.and_eq_true, decide_eq_true_eq]
    exact ⟨trivial, by rw [hres, hjoin']⟩
  · -- ineligible file: nothing is produced
    intro dp bp n hmd hig bs pre hb hp hv hdp hbp x hx
    have hig' : IGNORE_PATTERNS.contains n = false := by simpa using hig
    have hmd' : isMarkdownFile n = false := by simpa using hmd
    rw [buildEntry_file_nonmd posixPm lc n dp bp hig' hmd'] at hx
    cases hx
  · -- kept directory
    intro dp bp n entries fullPath children hcond hig ih bs pre hb hp hv hdp hbp x hx
    have hig' : IGNORE_PATTERNS.contains n = false := by simpa using hig
    rw [buildEntry_dir_kept posixPm lc n entries dp bp hig' hcond] at hx
    rcases List.mem_singleton.mp hx with rfl
    have hv' : validSeg n = true ∧ fsValid entries = true := by
      have h' : (validSeg n && fsValid entries) = true := by simpa [entryValid] using hv
      simpa [Bool.and_eq_true] using h'
    have hvn : validSeg n = true := hv'.1
    have hvsub : fsValid entries = true := hv'.2
    have hbs_pre : (bs ++ pre).all validSeg = true := by
      rw [List.all_append]
      simp [hb, hp]
    have hpre_n : (pre ++ [n]).all validSeg = true := by
      rw [List.all_append]
      simp [hp, hvn]
    subst hdp hbp
    have hjoin : posixPm.join (mkAbs (bs ++ pre)) n = mkAbs (bs ++ (pre ++ [n])) := by
      show posixJoin2 (mkAbs (bs ++ pre)) n = _
      rw [posixJoin2_mkAbs hbs_pre hvn, List.append_assoc]
    have hrel : posixPm.relative (mkAbs bs) (posixPm.join (mkAbs (bs ++ pre)) n)
        = slashJoin (pre ++ [n]) := by
      rw [hjoin]
      show posixRelative (mkAbs bs) (mkAbs (bs ++ (pre ++ [n]))) = _
      exact posixRelative_mkAbs hb hpre_n (by simp)
    have hres : posixResolve2 (mkAbs bs) (slashJoin (pre ++ [n]))
        = mkAbs (bs ++ (pre ++ [n])) :=
      posixResolve2_slashJoin hb hpre_n (by simp)
    have hchildren : ∀ m ∈ sortLe (nodeLe lc)
        (buildNodes posixPm lc entries (posixPm.join (mkAbs (bs ++ pre)) n) (mkAbs bs)),
        specNodeOk (mkAbs bs) (posixPm.join (mkAbs (bs ++ pre)) n) (pre ++ [n]) m = true := by
      intro m hm
      exact ih bs (pre ++ [n]) hb hpre_n hvsub hjoin rfl m
        ((sortLe_perm (nodeLe lc) _).mem_iff.mp hm)
    have hforest : specForestOk (mkAbs bs) (posixPm.join (mkAbs (bs ++ pre)) n) (pre ++ [n])
        (sortLe (nodeLe lc)
          (buildNodes posixPm lc entries (posixPm.join (mkAbs (bs ++ pre)) n) (mkAbs bs)))
        = true :=
      (specForestOk_iff_mem _ _ _ _).mpr hchildren
    have hjoin' : posixJoin2 (mkAbs (bs ++ pre)) n = mkAbs (bs ++ (pre ++ [n])) := hjoin
    simp only [specNodeOk, hrel, Bool.and_eq_true, decide_eq_true_eq]
    refine ⟨⟨trivial, by rw [hres, hjoin']⟩, ?_⟩
    exact hforest
  · -- dropped directory: nothing is produced
    intro dp bp n entries fullPath children hcond hig ih bs pre hb hp hv hdp hbp x hx
    have hig' : IGNORE_PATTERNS.contains n = false := by simpa using hig
    have hcond' : (decide ((sortLe (nodeLe lc)
        (buildNodes posixPm lc entries (posixPm.join dp n) bp)).length > 0)
        || hasMarkdownFiles (sortLe (nodeLe lc)
          (buildNodes posixPm lc entries (posixPm.join dp n) bp))) = false := by
      simpa using hcond
    rw [buildEntry_dir_dropped posixPm lc n entries dp bp hig' hcond'] at hx
    cases hx
  · -- empty listing
    intro dp bp bs pre hb hp hv hdp hbp x hx
    simp [buildNodes] at hx
  · -- cons
    intro e rest dp bp ih1 ih2 bs pre hb hp hv hdp hbp x hx
    have hv' : entryValid e = true ∧ fsValid rest = true := by
      have h' : (entryValid e && fsValid rest) = true := by simpa [fsValid] using hv
      simpa [Bool.and_eq_true] using h'
    have hve : entryValid e = true := hv'.1
    have hvr : fsValid rest = true := hv'.2
    simp only [buildNodes, List.mem_append] at hx
    rcases hx with hx | hx
    · exact ih1 bs pre hb hp hve hdp hbp x hx
    · exact ih2 bs pre hb hp hvr hdp hbp x hx

/-- C5 (amended): on a POSIX host (`node:path` = the posix flavour, so
the host separator is `/`), every node of every tree `buildFileTree`
returns carries as `path` the forward-slash POSIX-joined relative path
from the base directory to the entry, and resolving the root plus that
path reaches the original absolute entry (round-trip).  The claim's "
regardless of host path convention" does not hold — see the Windows
counterexample — because the code uses the host's `join`/`relative`
without separator conversion. -/
theorem build_file_tree_paths_posix (lc : String → String → Int)
    (entries : List FSEntry) (bsegs : List String)
    (hb : bsegs.all validSeg = true) (hfs : fsValid entries = true) :
    specForestOk (mkAbs bsegs) (mkAbs bsegs) []
      (buildFileTree posixPm lc entries (mkAbs bsegs) (mkAbs bsegs)) = true := by
  rw [specForestOk_iff_mem]
  intro n hn
  simp only [buildFileTree] at hn
  exact buildNodes_paths_posix lc entries (mkAbs bsegs) (mkAbs bsegs) bsegs []
    hb (by simp) hfs (by rw [List.append_nil]) rfl n
    ((sortLe_perm (nodeLe lc) _).mem_iff.mp hn)

/-- Counterexample to C5 as stated: with the Windows `node:path`
(`join`/`relative` of the win32 flavour), a nested entry's `path` is
`"sub\\a.md"` — the host-separator relative path, not the
forward-slash one the claim promises for every host convention. -/
theorem build_file_tree_paths_counterexample :
    forestPaths (buildFileTree win32Pm lcStd [FSEntry.dir "sub" [FSEntry.file "a.md"]]
        "C:\\base" "C:\\base") = ["sub", "sub\\a.md"] ∧
    ("sub\\a.md" : String) ≠ "sub/a.md" ∧
    "sub/a.md" ∉ forestPaths (buildFileTree win32Pm lcStd
        [FSEntry.dir "sub" [FSEntry.file "a.md"]] "C:\\base" "C:\\base") :=
  ⟨by decide, by decide, by decide⟩

/-- Witness for the amended C5 on a concrete nested listing under
`/root`. -/
theorem build_file_tree_paths_posix_witness :
    specForestOk (mkAbs ["root"]) (mkAbs ["root"]) []
      (buildFileTree posixPm lcStd [FSEntry.dir "sub" [FSEntry.file "a.md"]]
        (mkAbs ["root"]) (mkAbs ["root"])) = true :=
  build_file_tree_paths_posix lcStd [FSEntry.dir "sub" [FSEntry.file "a.md"]] ["root"]
    (by decide) (by decide)
